import Mathlib

/-!
Verification of the red-black-tree set implementation (rbtreeset.c / common.h).

Two shallow embeddings of the same source are used:

* an inductive-tree model for the structural operations (`set_insert`,
  `set_get`, `set_union`, `set_intersection`, `set_difference`).  The C code
  navigates with parent pointers; here the chain of ancestors of the node
  under consideration is carried explicitly as a list of `Frame`s (a zipper),
  which is the functional rendering of the parent pointer.

* a pointer-heap model for the Morris iterator (`next_node_inorder`,
  `set_createiter`, `set_next`, `set_hasnext`, `set_destroyiter`) and the
  rotation primitives, because Morris threading temporarily creates cycles
  (`pre->right = curr` points back to an ancestor), which an inductive tree
  cannot represent.  Node addresses are tree positions (`Pos`); the NIL
  sentinel is the `Option.none` pointer, and reading it yields the global
  `static tnode_t sentinel = {.color = BLACK}` (all other fields
  zero-initialized, i.e. null).

The element comparator `cmp : α → α → Int` is an ambient parameter: the C
struct stores one `cmp_fn` per set, and every claim below assumes all sets
involved share the same comparator (the spec's comparator contract), so the
pointer-equality test `a->cmpfn == b->cmpfn` in `set_union` is modelled as
true.
-/

namespace RBSet

inductive Color where
  | red
  | black
deriving DecidableEq, Repr

open Color

/-- The node type of the tree (struct tnode), minus the parent pointer, which
in the inductive model is represented by the `Frame` list of the zipper. -/
inductive Tree (α : Type) where
  | nil
  | node (color : Color) (elem : α) (left right : Tree α)
deriving DecidableEq, Repr

namespace Tree

/-- Color of the node a pointer refers to; a NIL pointer refers to the
sentinel, which is black. -/
def rootColor : Tree α → Color
  | nil => black
  | node c _ _ _ => c

/-- In-order element sequence of a tree. -/
def inorder : Tree α → List α
  | nil => []
  | node _ x l r => inorder l ++ x :: inorder r

/-- Number of nodes. -/
def size : Tree α → Nat
  | nil => 0
  | node _ _ l r => size l + size r + 1

end Tree

open Tree

/-- The laws the spec's comparator contract demands: a total order where a
zero result means equality, negative means first-argument-less, positive
means first-argument-greater.  `sign_swap` is antisymmetry of the sign and
`le_trans` is transitivity of the induced (non-strict) order. -/
structure TotalCmp (cmp : α → α → Int) : Prop where
  sign_swap : ∀ a b, 0 < cmp a b ↔ cmp b a < 0
  le_trans : ∀ a b c, cmp a b ≤ 0 → cmp b c ≤ 0 → cmp a c ≤ 0

namespace TotalCmp

variable {α : Type} {cmp : α → α → Int}

theorem zero_swap (hc : TotalCmp cmp) (a b : α) : cmp a b = 0 ↔ cmp b a = 0 := by
  have h1 := hc.sign_swap a b
  have h2 := hc.sign_swap b a
  omega

theorem refl (hc : TotalCmp cmp) (a : α) : cmp a a = 0 := by
  have := hc.sign_swap a a
  omega

theorem lt_trans (hc : TotalCmp cmp) {a b c : α} (h1 : cmp a b < 0) (h2 : cmp b c < 0) :
    cmp a c < 0 := by
  have hle := hc.le_trans a b c (by omega) (by omega)
  rcases lt_or_eq_of_le hle with h | h
  · exact h
  · exfalso
    have hca : cmp c a = 0 := (hc.zero_swap a c).mp h
    have hcb := hc.le_trans c a b (by omega) (by omega)
    have := hc.sign_swap c b
    omega

theorem eq_lt_trans (hc : TotalCmp cmp) {a b c : α} (h1 : cmp a b = 0) (h2 : cmp b c < 0) :
    cmp a c < 0 := by
  have hle := hc.le_trans a b c (by omega) (by omega)
  rcases lt_or_eq_of_le hle with h | h
  · exact h
  · exfalso
    have hca : cmp c a = 0 := (hc.zero_swap a c).mp h
    have hba : cmp b a = 0 := (hc.zero_swap a b).mp h1
    have hcb := hc.le_trans c a b (by omega) (by omega)
    have := hc.sign_swap c b
    omega

theorem lt_eq_trans (hc : TotalCmp cmp) {a b c : α} (h1 : cmp a b < 0) (h2 : cmp b c = 0) :
    cmp a c < 0 := by
  have hle := hc.le_trans a b c (by omega) (by omega)
  rcases lt_or_eq_of_le hle with h | h
  · exact h
  · exfalso
    have hca : cmp c a = 0 := (hc.zero_swap a c).mp h
    have hcb : cmp c b = 0 := (hc.zero_swap b c).mp h2
    have hab := hc.le_trans b c a (by omega) (by omega)
    have := hc.sign_swap b a
    omega

theorem eq_trans (hc : TotalCmp cmp) {a b c : α} (h1 : cmp a b = 0) (h2 : cmp b c = 0) :
    cmp a c = 0 := by
  have hle := hc.le_trans a b c (by omega) (by omega)
  rcases lt_or_eq_of_le hle with h | h
  · exfalso
    have hba : cmp b a = 0 := (hc.zero_swap a b).mp h1
    have hcb : cmp c b = 0 := (hc.zero_swap b c).mp h2
    have := hc.le_trans c b a (by omega) (by omega)
    have := hc.sign_swap c a
    omega
  · omega

end TotalCmp

/-- The set structure (struct set).  The comparator is an ambient parameter
rather than a field (see the header comment); `n_iterators` is the advisory
active-iterator counter. -/
structure SetS (α : Type) where
  root : Tree α
  length : Nat
  n_iterators : Int
deriving DecidableEq, Repr

/-- Creates a new, empty set (set_create).  Allocation failure is out of
scope of the model. -/
def set_create : SetS α :=
  { root := Tree.nil, length := 0, n_iterators := 0 }

/-- Get the number of elements contained in a set (set_length). -/
def set_length (set : SetS α) : Nat :=
  set.length

/- ------------------------Insertion (zipper model)----------------------- -/

/-- Which child of its parent the focused subtree is. -/
inductive Dir where
  | left
  | right
deriving DecidableEq, Repr

/-- One ancestor on the path from the focused node up to the root: the side
the focus hangs on, the ancestor's color and element, and its other
subtree.  This list-of-frames representation is the explicit form of the
`parent` pointers of struct tnode. -/
structure Frame (α : Type) where
  d : Dir
  color : Color
  elem : α
  sib : Tree α
deriving DecidableEq, Repr

/-- Rebuild the parent node from a frame and the focused subtree. -/
def Frame.fill (f : Frame α) (t : Tree α) : Tree α :=
  match f.d with
  | Dir.left => Tree.node f.color f.elem t f.sib
  | Dir.right => Tree.node f.color f.elem f.sib t

/-- Rebuild the whole tree from a focused subtree and its ancestor path. -/
def fillPath (t : Tree α) : List (Frame α) → Tree α
  | [] => t
  | f :: path => fillPath (f.fill t) path

/-- Recolor the root black (`set->root->color = BLACK` after the balancing
loop; the root is never NIL at that point). -/
def blackenRoot : Tree α → Tree α
  | Tree.nil => Tree.nil
  | Tree.node _ x l r => Tree.node black x l r

/-- Result of the `node_insert` descent: either the tree already has an
equal element (C returns NIL and reports the existing node through the
`duplicate` out-parameter), or the new red node was attached and the path
of ancestors above it is reported. -/
inductive InsRes (α : Type) where
  | dup (x : α)
  | attached (path : List (Frame α))
deriving DecidableEq, Repr

/-- Descent loop of node_insert: traverse from the root until a node with an
equal element is found, or until the move would step onto a NIL child, in
which case the new red node is created there.  `set_insert` only calls this
with a non-NIL root, and the loop checks each child before moving, so the
`nil` case below is never reached from `set_insert`. -/
def node_insert (cmp : α → α → Int) (e : α) :
    Tree α → List (Frame α) → InsRes α
  | Tree.nil, path => InsRes.attached path
  | Tree.node c x l r, path =>
    let v := cmp e x
    if v = 0 then
      InsRes.dup x
    else if 0 < v then
      match r with
      | Tree.nil => InsRes.attached (⟨Dir.right, c, x, l⟩ :: path)
      | Tree.node c' x' l' r' =>
        node_insert cmp e (Tree.node c' x' l' r') (⟨Dir.right, c, x, l⟩ :: path)
    else
      match l with
      | Tree.nil => InsRes.attached (⟨Dir.left, c, x, r⟩ :: path)
      | Tree.node c' x' l' r' =>
        node_insert cmp e (Tree.node c' x' l' r') (⟨Dir.left, c, x, r⟩ :: path)

/-- Color of the root of a frame's sibling subtree: this is how the C code
reads `unc->color`, the uncle being possibly the (black) sentinel. -/
def uncColor (t : Tree α) : Color :=
  t.rootColor

/-- The rebalancing loop of post_insert_balance, in zipper form.  The focus
is the subtree rooted at `curr` (always a real node); the head of `path` is
`curr->parent`.  Loop condition: the parent frame is red.  Case 1 (red
uncle) recolors and continues two levels up; cases 2 and 3 (black uncle)
perform the rotations of the C code, written out as the net local
restructuring they produce, and break.  Every exit point applies
`blackenRoot`, matching `set->root->color = BLACK` after the loop.

The branch where the parent frame is red but there is no grandparent frame
corresponds to C reading fields of the sentinel (a red root); it is
unreachable whenever the tree's root was black on entry, which
`balance_spec_aux` below depends on. -/
def post_insert_balance (focus : Tree α) : List (Frame α) → Tree α
  | [] => blackenRoot focus
  | pf :: rest =>
    match pf.color with
    | black => blackenRoot (fillPath focus (pf :: rest))
    | red =>
      match rest with
      | [] => blackenRoot (fillPath focus [pf])
      | gf :: rest2 =>
        match uncColor gf.sib with
        | red =>
          -- case 1: red uncle - recolor and move up the tree
          let par := Frame.fill ⟨pf.d, black, pf.elem, pf.sib⟩ focus
          let unc := blackenRoot gf.sib
          let focus' :=
            match gf.d with
            | Dir.left => Tree.node red gf.elem par unc
            | Dir.right => Tree.node red gf.elem unc par
          post_insert_balance focus' rest2
        | black =>
          -- cases 2 and 3: black uncle - rotate, recolor, break
          let sub :=
            match gf.d, pf.d, focus with
            | Dir.left, Dir.right, Tree.node _ fe fl fr =>
              -- case 2a Left-Right: rotate_left(par) then rotate_right(gp)
              Tree.node black fe (Tree.node red pf.elem pf.sib fl)
                (Tree.node red gf.elem fr gf.sib)
            | Dir.left, Dir.left, _ =>
              -- case 3a Left-Left: rotate_right(gp)
              Tree.node black pf.elem focus (Tree.node red gf.elem pf.sib gf.sib)
            | Dir.right, Dir.left, Tree.node _ fe fl fr =>
              -- case 2b Right-Left: rotate_right(par) then rotate_left(gp)
              Tree.node black fe (Tree.node red gf.elem gf.sib fl)
                (Tree.node red pf.elem fr pf.sib)
            | Dir.right, Dir.right, _ =>
              -- case 3b Right-Right: rotate_left(gp)
              Tree.node black pf.elem (Tree.node red gf.elem gf.sib pf.sib) focus
            | _, _, Tree.nil => Tree.nil  -- focus is never NIL
          blackenRoot (fillPath sub rest2)

/-- Add an element to the set (set_insert).  Returns the updated set and
what the C function returns: NULL (`none`) if the element was inserted, or
a reference to the already-present equal element. -/
def set_insert (cmp : α → α → Int) (set : SetS α) (elem : α) :
    SetS α × Option α :=
  match set.root with
  | Tree.nil =>
    ({ set with root := Tree.node black elem Tree.nil Tree.nil,
                length := set.length + 1 }, none)
  | Tree.node c x l r =>
    match node_insert cmp elem (Tree.node c x l r) [] with
    | InsRes.dup x' => (set, some x')
    | InsRes.attached path =>
      ({ set with
         root := post_insert_balance (Tree.node red elem Tree.nil Tree.nil) path,
         length := set.length + 1 }, none)

/- -------------------------Search------------------------ -/

/-- Iterative descent of node_search: returns the subtree whose root holds
an equal element, or `nil` if a NIL pointer was reached. -/
def node_search (cmp : α → α → Int) (elem : α) : Tree α → Tree α
  | Tree.nil => Tree.nil
  | Tree.node c x l r =>
    let direction := cmp elem x
    if 0 < direction then node_search cmp elem r
    else if direction < 0 then node_search cmp elem l
    else Tree.node c x l r

/-- Search the set (set_get): returns `node->elem` of the node found, where
the sentinel's elem is null (`none`). -/
def set_get (cmp : α → α → Int) (set : SetS α) (elem : α) : Option α :=
  match node_search cmp elem set.root with
  | Tree.nil => none
  | Tree.node _ x _ _ => some x

/- ---------------------Set operations-------------------- -/

/-- Recursive part of set_copy: copies each node with no comparisons.  In the
inductive model a node-for-node structural copy reproduces the tree value
(the dropped `parent` argument is the back-pointer wiring). -/
def rec_set_copy : Tree α → Tree α
  | Tree.nil => Tree.nil
  | Tree.node c x l r => Tree.node c x (rec_set_copy l) (rec_set_copy r)

/-- Copy of a set (set_copy).  The C function mallocs a fresh struct and
assigns `cmpfn`, `length` and `root` but never assigns `n_iterators`, so
that field keeps whatever the allocation left there; the arbitrary value is
made explicit as the `junk` argument. -/
def set_copy (junk : Int) (set : SetS α) : SetS α :=
  { root := rec_set_copy set.root, length := set.length, n_iterators := junk }

/-- Recursive part of set_union (rec_set_merge): walk `root` in the order
right subtree, left subtree, self, inserting each element into `target`. -/
def rec_set_merge (cmp : α → α → Int) (target : SetS α) : Tree α → SetS α
  | Tree.nil => target
  | Tree.node _ x l r =>
    (set_insert cmp (rec_set_merge cmp (rec_set_merge cmp target r) l) x).1

/-- Union of two sets handed in as distinct handles (set_union with a ≠ b;
the pointer-identity shortcut `a == b` is `set_union_self` below).  The two
handles share the comparator, so the C test `a->cmpfn == b->cmpfn` holds
and the larger set is always picked as the copy source. -/
def set_union (cmp : α → α → Int) (junk : Int) (a b : SetS α) : SetS α :=
  let p := if a.length < b.length then (b, a) else (a, b)
  rec_set_merge cmp (set_copy junk p.1) p.2.root

/-- set_union applied to one set under both arguments: the merge is skipped
and a copy of the set is returned. -/
def set_union_self (junk : Int) (a : SetS α) : SetS α :=
  set_copy junk a

/-- Recursive part of set_intersection: walk `root_a` in postorder (left,
right, self) and insert each element that `set_get` finds in `b`. -/
def rec_set_intersection (cmp : α → α → Int) (c b : SetS α) :
    Tree α → SetS α
  | Tree.nil => c
  | Tree.node _ x l r =>
    let c1 := rec_set_intersection cmp c b l
    let c2 := rec_set_intersection cmp c1 b r
    match set_get cmp b x with
    | some _ => (set_insert cmp c2 x).1
    | none => c2

/-- Intersection of two sets handed in as distinct handles (set_intersection
with a ≠ b).  The result starts from set_create (so its counter is zero);
if `a` is shorter the two are swapped, making the longer set the one walked
and the shorter one the one searched. -/
def set_intersection (cmp : α → α → Int) (a b : SetS α) : SetS α :=
  let c : SetS α := set_create
  let p := if a.length < b.length then (b, a) else (a, b)
  rec_set_intersection cmp c p.2 p.1.root

/-- set_intersection applied to one set under both arguments: returns
set_copy of it (with the copy's uninitialized counter). -/
def set_intersection_self (junk : Int) (a : SetS α) : SetS α :=
  set_copy junk a

/-- Recursive part of set_difference: walk `root_a` in postorder and insert
each element that `set_get` does not find in `b`. -/
def rec_set_difference (cmp : α → α → Int) (c b : SetS α) :
    Tree α → SetS α
  | Tree.nil => c
  | Tree.node _ x l r =>
    let c1 := rec_set_difference cmp c b l
    let c2 := rec_set_difference cmp c1 b r
    match set_get cmp b x with
    | some _ => c2
    | none => (set_insert cmp c2 x).1

/-- Difference of two sets handed in as distinct handles (set_difference
with a ≠ b; with the same handle the walk is skipped and the empty set is
returned). -/
def set_difference (cmp : α → α → Int) (a b : SetS α) : SetS α :=
  rec_set_difference cmp set_create b a.root

/-- set_difference applied to one set under both arguments: empty set. -/
def set_difference_self (α : Type) : SetS α :=
  set_create

/- -----------------Pointer-heap model (iterator)----------------- -/

/-- Address of a node: its position in the tree it was allocated for (a list
of turns from the root).  malloc hands out arbitrary distinct addresses;
any injective labelling of the nodes represents them, and positions are the
convenient one. -/
abbrev Pos := List Dir

/-- A pointer: either the NIL sentinel pointer or a node address. -/
abbrev Ptr := Option Pos

/-- A heap node (struct tnode), with `elem` nullable because the sentinel's
elem is the null pointer. -/
structure HNode (α : Type) where
  color : Color
  elem : Option α
  parent : Ptr
  left : Ptr
  right : Ptr
deriving DecidableEq, Repr

/-- The global sentinel: `static tnode_t sentinel = {.color = BLACK}`, all
other fields zero-initialized (null). -/
def sentinelNode (α : Type) : HNode α :=
  { color := black, elem := none, parent := none, left := none, right := none }

/-- The memory the tree functions operate on.  Dereferencing the NIL pointer
reads the sentinel, so the sentinel's cell is part of the heap (at `none`);
writes through a NIL pointer would likewise hit the sentinel, which is what
claim C8 asserts never happens. -/
abbrev Heap (α : Type) := Ptr → HNode α

/-- Store to the heap cell a pointer designates. -/
def hwrite (h : Heap α) (p : Ptr) (n : HNode α) : Heap α :=
  Function.update h p n

/-- Pointer to the child subtree placed at position `q`: NIL for an empty
subtree, otherwise the address `q`. -/
def childPtr : Tree α → Pos → Ptr
  | Tree.nil, _ => none
  | Tree.node _ _ _ _, q => some q

/-- Subtree of `t` at position `p`. -/
def subtreeAt : Tree α → Pos → Option (Tree α)
  | t, [] => some t
  | Tree.nil, _ :: _ => none
  | Tree.node _ _ l _, Dir.left :: p => subtreeAt l p
  | Tree.node _ _ _ r, Dir.right :: p => subtreeAt r p

/-- The heap laid out for tree `t`: the sentinel at the NIL pointer, the
node of `t` at position `p` at address `p`, and unallocated addresses
reading as zeroed memory (modelled as a sentinel-valued cell; correct code
never dereferences them). -/
def mkHeap (t : Tree α) : Heap α := fun p? =>
  match p? with
  | none => sentinelNode α
  | some p =>
    match subtreeAt t p with
    | some (Tree.node c x l r) =>
      { color := c, elem := some x,
        parent := if p = [] then none else some p.dropLast,
        left := childPtr l (p ++ [Dir.left]),
        right := childPtr r (p ++ [Dir.right]) }
    | _ => sentinelNode α

/-- Inner while loop of next_node_inorder: from `pre`, keep moving right
while the right pointer is neither NIL nor `curr`.  Fuel-indexed because
termination is a consequence of heap well-formedness, not of the code. -/
def findPre (h : Heap α) (curr : Ptr) : Nat → Ptr → Ptr
  | 0, pre => pre
  | fuel + 1, pre =>
    if (h pre).right ≠ none ∧ (h pre).right ≠ curr then
      findPre h curr fuel ((h pre).right)
    else pre

/-- One iteration of the outer while loop of next_node_inorder.  Returns the
updated heap, the updated `curr`, and the node set as `ret` if this
iteration chose one (ending the loop). -/
def morrisStep (h : Heap α) (curr : Ptr) (fuel : Nat) :
    Heap α × Ptr × Option Ptr :=
  if (h curr).left = none then
    -- can't move further left in current subtree: ret = curr, move right
    (h, (h curr).right, some curr)
  else
    let pre := findPre h curr fuel ((h curr).left)
    if (h pre).right = none then
      -- link leaf node with current, then move left
      let h' := hwrite h pre { h pre with right := curr }
      (h', (h' curr).left, none)
    else
      -- hit a used link: clean up the temporary pointer and move right
      let h' := hwrite h pre { h pre with right := none }
      (h', (h' curr).right, some curr)

/-- The outer while loop of next_node_inorder, run until an iteration
yields (`ret != NIL`). -/
def morrisLoop (h : Heap α) (curr : Ptr) : Nat → Heap α × Ptr × Ptr
  | 0 => (h, curr, none)
  | fuel + 1 =>
    match morrisStep h curr fuel with
    | (h', c', some ret) => (h', c', ret)
    | (h', c', none) => morrisLoop h' c' fuel

/-- One call of next_node_inorder: NIL immediately if the iterator is
exhausted, otherwise run the loop; the result triple is the heap, the new
`iter->node`, and the returned node pointer. -/
def next_node_inorder (h : Heap α) (node : Ptr) (fuel : Nat) :
    Heap α × Ptr × Ptr :=
  if node = none then (h, node, none)
  else morrisLoop h node fuel

/-- The iterator object (struct set_iter); the set back-reference is
represented by keeping the set alongside where a claim needs its counter. -/
structure SetIter where
  node : Ptr
deriving DecidableEq, Repr

/-- Create an iterator over a set (set_createiter): bumps the advisory
counter and points the cursor at the root. -/
def set_createiter (s : SetS α) : SetS α × SetIter :=
  ({ s with n_iterators := s.n_iterators + 1 }, ⟨childPtr s.root []⟩)

/-- set_hasnext: 0 when the cursor is the NIL pointer, 1 otherwise. -/
def set_hasnext (iter : SetIter) : Nat :=
  if iter.node = none then 0 else 1

/-- set_next: advance the iterator with next_node_inorder and return the
yielded node's elem; at the end of the tree the returned node is the
sentinel, whose elem is null. -/
def set_next (h : Heap α) (iter : SetIter) (fuel : Nat) :
    Heap α × SetIter × Option α :=
  let r := next_node_inorder h iter.node fuel
  (r.1, ⟨r.2.1⟩, (r.1 r.2.2).elem)

/-- The draining loop of set_destroyiter: finish the Morris iteration so no
mutated leaves remain. -/
def drainLoop (h : Heap α) (iter : SetIter) : Nat → Nat → Heap α × SetIter
  | 0, _ => (h, iter)
  | fuel + 1, stepFuel =>
    if set_hasnext iter = 0 then (h, iter)
    else
      let r := next_node_inorder h iter.node stepFuel
      drainLoop r.1 ⟨r.2.1⟩ fuel stepFuel

/-- set_destroyiter: drain the traversal, then decrement the set's advisory
counter and free the iterator. -/
def set_destroyiter (h : Heap α) (s : SetS α) (iter : SetIter)
    (fuel stepFuel : Nat) : Heap α × SetS α :=
  let r := drainLoop h iter fuel stepFuel
  (r.1, { s with n_iterators := s.n_iterators - 1 })

/- ---------------Rotation primitives (heap model)--------------- -/

/-- rotate_left on the heap: `u` is rotated counter-clockwise with its right
child `v`; `root` is the set's root pointer, updated when `u` was the root.
Each write reads the heap produced by the previous one, mirroring the
statement order of the C function. -/
def rotate_left (h : Heap α) (root u : Ptr) : Heap α × Ptr :=
  let v := (h u).right
  let h1 := hwrite h u { h u with right := (h v).left }
  let h2 :=
    if (h1 v).left ≠ none then
      hwrite h1 ((h1 v).left) { h1 ((h1 v).left) with parent := u }
    else h1
  let h3 := hwrite h2 v { h2 v with parent := (h2 u).parent }
  let up := (h3 u).parent
  let hr : Heap α × Ptr :=
    if up = none then (h3, v)
    else if (h3 up).left = u then (hwrite h3 up { h3 up with left := v }, root)
    else (hwrite h3 up { h3 up with right := v }, root)
  let h4 := hwrite hr.1 v { hr.1 v with left := u }
  let h5 := hwrite h4 u { h4 u with parent := v }
  (h5, hr.2)

/-- rotate_right on the heap: mirror image of rotate_left. -/
def rotate_right (h : Heap α) (root u : Ptr) : Heap α × Ptr :=
  let v := (h u).left
  let h1 := hwrite h u { h u with left := (h v).right }
  let h2 :=
    if (h1 v).right ≠ none then
      hwrite h1 ((h1 v).right) { h1 ((h1 v).right) with parent := u }
    else h1
  let h3 := hwrite h2 v { h2 v with parent := (h2 u).parent }
  let up := (h3 u).parent
  let hr : Heap α × Ptr :=
    if up = none then (h3, v)
    else if (h3 up).right = u then (hwrite h3 up { h3 up with right := v }, root)
    else (hwrite h3 up { h3 up with left := v }, root)
  let h4 := hwrite hr.1 v { hr.1 v with right := u }
  let h5 := hwrite h4 u { h4 u with parent := v }
  (h5, hr.2)

/-- Repeated set_next calls: the heap and cursor after `k` calls, together
with the list of values the calls returned. -/
def repeatNext (h : Heap α) (iter : SetIter) (fuel : Nat) :
    Nat → Heap α × SetIter × List (Option α)
  | 0 => (h, iter, [])
  | k + 1 =>
    let r := set_next h iter fuel
    let rest := repeatNext r.1 r.2.1 fuel k
    (rest.1, rest.2.1, r.2.2 :: rest.2.2)

/- --------------Red-black invariants (proof machinery)-------------- -/

/-- The red-black balance invariant: `Balanced t c n` says the root of `t`
has color `c`, every path from the root to a sentinel passes `n` black
nodes, and no red node has a red child. -/
inductive Balanced : Tree α → Color → Nat → Prop where
  | nil : Balanced Tree.nil black 0
  | red {l r : Tree α} {x : α} {n : Nat} :
      Balanced l black n → Balanced r black n →
      Balanced (Tree.node red x l r) red n
  | black {l r : Tree α} {x : α} {cl cr : Color} {n : Nat} :
      Balanced l cl n → Balanced r cr n →
      Balanced (Tree.node black x l r) black (n + 1)

/-- Property 3 of the runtime validator (rec_validate_rbtree): a red node
does not have a red child. -/
def noRedRed : Tree α → Bool
  | Tree.nil => true
  | Tree.node c _ l r =>
    (c == black || (l.rootColor == black && r.rootColor == black)) &&
      noRedRed l && noRedRed r

/-- Property 4 of the runtime validator: every root-to-sentinel path passes
the same number of black nodes; returns that number, or `none` when the
counts disagree. -/
def uniformBlack : Tree α → Option Nat
  | Tree.nil => some 0
  | Tree.node c _ l r =>
    match uniformBlack l, uniformBlack r with
    | some a, some b =>
      if a = b then some (if c == black then a + 1 else a) else none
    | _, _ => none

/-- The set obtained from set_create by a finite sequence of set_insert
calls (the return values are discarded, as a caller inserting elements
does). -/
def set_insert_all (cmp : α → α → Int) (xs : List α) : SetS α :=
  xs.foldl (fun s x => (set_insert cmp s x).1) set_create

/-- Balance invariant of an ancestor path: `PathFits path c n` says that
plugging any `Balanced t c n` subtree into the hole yields a tree that is
balanced at every frame of the path.  A red frame only tolerates a black
hole; a black frame tolerates either color. -/
inductive PathFits : List (Frame α) → Color → Nat → Prop where
  | nil (c : Color) (n : Nat) : PathFits [] c n
  | black_frame {path : List (Frame α)} {d : Dir} {e : α} {sib : Tree α}
      {c cs : Color} {n : Nat} :
      PathFits path black (n + 1) → Balanced sib cs n →
      PathFits (⟨d, black, e, sib⟩ :: path) c n
  | red_frame {path : List (Frame α)} {d : Dir} {e : α} {sib : Tree α}
      {n : Nat} :
      PathFits path red n → Balanced sib black n →
      PathFits (⟨d, red, e, sib⟩ :: path) black n

/-- Loop invariant of post_insert_balance: either the path accepts the red
focus with no violation, or its head frame is red (the red-red violation
the loop is fixing) with a black sibling and a violation-free path above. -/
def BalInvP (path : List (Frame α)) (n : Nat) : Prop :=
  PathFits path red n ∨
    ∃ d e sib rest, path = ⟨d, red, e, sib⟩ :: rest ∧
      Balanced sib black n ∧ PathFits rest red n

/-- The outermost frame of the path (the original root of the tree) is
black; trivially true of the empty path. -/
def lastFrameBlack (path : List (Frame α)) : Prop :=
  ∀ f ∈ path.getLast?, f.color = black

/-- Model of compare_integers (compare two ints through pointers): the
difference of the two values. -/
def compare_integers : Int → Int → Int :=
  fun a b => a - b

/-- The binary-search-order invariant (property 5 of the spec's data model):
at every node, all elements of the left subtree compare less and all
elements of the right subtree compare greater. -/
def Ordered (cmp : α → α → Int) : Tree α → Prop
  | Tree.nil => True
  | Tree.node _ x l r =>
    (∀ y ∈ inorder l, cmp y x < 0) ∧ (∀ y ∈ inorder r, cmp x y < 0) ∧
      Ordered cmp l ∧ Ordered cmp r

instance Ordered.instDecidable (cmp : α → α → Int) :
    ∀ t : Tree α, Decidable (Ordered cmp t)
  | Tree.nil => isTrue trivial
  | Tree.node c x l r =>
    haveI := Ordered.instDecidable cmp l
    haveI := Ordered.instDecidable cmp r
    inferInstanceAs (Decidable
      ((∀ y ∈ inorder l, cmp y x < 0) ∧ (∀ y ∈ inorder r, cmp x y < 0) ∧
        Ordered cmp l ∧ Ordered cmp r))

/-- Strictly-ascending comparator order of a list. -/
def SortedCmp (cmp : α → α → Int) (l : List α) : Prop :=
  l.Pairwise (fun a b => cmp a b < 0)

/-- The representation invariant every reachable set satisfies: the tree is
in binary-search order and the length field counts its nodes. -/
def SetInv (cmp : α → α → Int) (s : SetS α) : Prop :=
  Ordered cmp s.root ∧ s.length = (inorder s.root).length

/-- The sequence of distinct inserted elements, first occurrence (by
comparator equality) kept: the elements a set built by those insertions
stores. -/
def dedupCmp (cmp : α → α → Int) (xs : List α) : List α :=
  xs.foldl (fun acc x =>
    if acc.any (fun y => cmp x y = 0) then acc else acc ++ [x]) []

/-- Comparator-key membership: the list holds an element comparing equal to
`z`. -/
def KeyMem (cmp : α → α → Int) (z : α) (l : List α) : Prop :=
  ∃ y ∈ l, cmp z y = 0

/-- No two elements of the list compare equal: each key appears at most
once. -/
def KeyFree (cmp : α → α → Int) (l : List α) : Prop :=
  l.Pairwise (fun a b => cmp a b ≠ 0)

/-- Comparator over pairs that inspects only the first component (a model
of any comparator that treats distinct objects as equal keys, such as
compare_ints through pointers to different records with the same key). -/
def compare_fst : Int × Int → Int × Int → Int :=
  fun a b => a.1 - b.1

/- ----------Morris traversal proof machinery (heap model)---------- -/

/-- Right pointer stored at a node whose right subtree is `sub`, placed at
position `q`, in a heap where the rightmost node of the enclosing subtree
may carry a Morris thread `exit`: the pointer is the thread when the
subtree is empty (the node is the rightmost), otherwise the child
address. -/
def exitPtr : Tree α → Pos → Ptr → Ptr
  | Tree.nil, _, e => e
  | Tree.node _ _ _ _, q, _ => some q

/-- The subtree `t` is laid out in heap `h` at position `p` with parent
pointer `par`, all pointers as mkHeap places them, except that the
rightmost node's right pointer holds `exit` (the pending Morris thread;
`none` when no thread is installed, since the rightmost node's right child
is the sentinel). -/
def Repr (h : Heap α) : Tree α → Pos → Ptr → Ptr → Prop
  | Tree.nil, _, _, _ => True
  | Tree.node c x l r, p, par, exit =>
    h (some p) = { color := c, elem := some x, parent := par,
                   left := childPtr l (p ++ [Dir.left]),
                   right := exitPtr r (p ++ [Dir.right]) exit } ∧
    Repr h l (p ++ [Dir.left]) (some p) none ∧
    Repr h r (p ++ [Dir.right]) (some p) exit

/-- Position of the rightmost node of the subtree at `q` (the predecessor
node Morris threading links from). -/
def rmPos : Tree α → Pos → Pos
  | Tree.nil, q => q
  | Tree.node _ _ _ r, q =>
    match r with
    | Tree.nil => q
    | Tree.node c x l r' => rmPos (Tree.node c x l r') (q ++ [Dir.right])

/-- One set_next call from iterator state `s₀` reaches state `s₁` and
returns `v`, for every sufficient fuel; the state is not yet exhausted. -/
def CallSpecV (s₀ s₁ : Heap α × Ptr) (v : Option α) : Prop :=
  s₀.2 ≠ none ∧
    ∃ N, ∀ fuel, N ≤ fuel → set_next s₀.1 ⟨s₀.2⟩ fuel = (s₁.1, ⟨s₁.2⟩, v)

/-- The iterator, driven by repeated set_next calls, yields the value list
`vs` while moving from state `s₀` to state `s₂`. -/
inductive YieldsV : Heap α × Ptr → List (Option α) → Heap α × Ptr → Prop where
  | done (s : Heap α × Ptr) : YieldsV s [] s
  | call {s₀ s₁ s₂ : Heap α × Ptr} {v : Option α} {vs : List (Option α)} :
      CallSpecV s₀ s₁ v → YieldsV s₁ vs s₂ → YieldsV s₀ (v :: vs) s₂

/- =====================  Claim C10  ===================== -/

/-- C10: once an iterator is exhausted (set_hasnext is 0), every further
set_next call returns the null element and changes neither the heap nor the
iterator, for arbitrarily many repeated calls.  The sentinel cell is in its
static initial state (its elem is the null pointer), which is what makes
`curr->elem` at the sentinel read as NULL. -/
theorem set_next_after_exhaustion {α : Type} (h : Heap α) (iter : SetIter)
    (fuel k : Nat) (hs : set_hasnext iter = 0)
    (hsent : h none = sentinelNode α) :
    repeatNext h iter fuel k = (h, iter, List.replicate k none) := by
  have hnode : iter.node = none := by
    by_contra hne
    simp [set_hasnext, hne] at hs
  induction k with
  | zero => simp [repeatNext]
  | succ k ih =>
    have hstep : set_next h iter fuel = (h, iter, none) := by
      obtain ⟨n⟩ := iter
      simp only [SetIter.mk.injEq] at hnode
      subst hnode
      simp [set_next, next_node_inorder, hsent, sentinelNode]
    simp [repeatNext, hstep, ih, List.replicate]

/-- Witness for C10 at a concrete exhausted iterator over a one-node heap. -/
theorem set_next_after_exhaustion_witness :
    set_hasnext (SetIter.mk none) = 0 ∧
      (mkHeap (Tree.node black (1 : Int) Tree.nil Tree.nil)) none =
        sentinelNode Int ∧
      repeatNext (mkHeap (Tree.node black (1 : Int) Tree.nil Tree.nil))
        (SetIter.mk none) 5 3 =
        (mkHeap (Tree.node black (1 : Int) Tree.nil Tree.nil),
          SetIter.mk none, List.replicate 3 none) :=
  ⟨rfl, rfl,
    set_next_after_exhaustion _ _ 5 3 rfl rfl⟩

/- =====================  Claim C9  ===================== -/

/-- C9 failing evaluation: set_copy never initializes `n_iterators`, so a
set produced by set_union carries whatever the allocation left in that
field (here made explicit as the junk value 7), not the advisory counter 0
the spec requires of a freshly returned set. -/
theorem set_union_uninitialized_counter :
    (set_union (fun a b : Int => a - b) 7
      { root := Tree.node black 1 Tree.nil Tree.nil, length := 1,
        n_iterators := 0 }
      { root := Tree.node black 2 Tree.nil Tree.nil, length := 1,
        n_iterators := 0 }).n_iterators = 7 := by
  rfl

/- ------------Lemmas about the balance invariant------------ -/

theorem Balanced.rootColor_eq {t : Tree α} {c : Color} {n : Nat}
    (h : Balanced t c n) : t.rootColor = c := by
  cases h <;> rfl

theorem blackenRoot_balanced {t : Tree α} {c : Color} {n : Nat}
    (h : Balanced t c n) : ∃ n', Balanced (blackenRoot t) black n' := by
  cases h with
  | nil => exact ⟨0, Balanced.nil⟩
  | red hl hr => exact ⟨_, Balanced.black hl hr⟩
  | black hl hr => exact ⟨_, Balanced.black hl hr⟩

theorem fillPath_balanced {path : List (Frame α)} {c : Color} {n : Nat}
    (hp : PathFits path c n) :
    ∀ {t : Tree α}, Balanced t c n →
      ∃ c' n', Balanced (fillPath t path) c' n' := by
  induction hp with
  | nil c n => exact fun ht => ⟨_, _, ht⟩
  | black_frame hp hs ih =>
    intro t ht
    rename_i path d e sib c' cs n'
    cases d with
    | left => exact ih (Balanced.black ht hs)
    | right => exact ih (Balanced.black hs ht)
  | red_frame hp hs ih =>
    intro t ht
    rename_i path d e sib n'
    cases d with
    | left => exact ih (Balanced.red ht hs)
    | right => exact ih (Balanced.red hs ht)

theorem PathFits.recolor {path : List (Frame α)} {c c' : Color} {n : Nat}
    (h : PathFits path c n)
    (hhead : ∀ f ∈ path.head?, f.color = black) : PathFits path c' n := by
  cases h with
  | nil => exact PathFits.nil _ _
  | black_frame hp hs => exact PathFits.black_frame hp hs
  | red_frame hp hs =>
    exfalso
    rename_i path d e sib
    have h1 : Frame.color ⟨d, red, e, sib⟩ = black := hhead ⟨d, red, e, sib⟩ (by simp)
    simp at h1

theorem lastFrameBlack_tail {f : Frame α} {path : List (Frame α)}
    (h : lastFrameBlack (f :: path)) : lastFrameBlack path := by
  cases path with
  | nil => intro g hg; simp at hg
  | cons g gs =>
    intro g' hg'
    exact h g' (by simpa using hg')

theorem balInvP_of_pathFits_black {path : List (Frame α)} {n : Nat}
    (h : PathFits path black n) : BalInvP path n := by
  cases h with
  | nil => exact Or.inl (PathFits.nil _ _)
  | black_frame hp hs => exact Or.inl (PathFits.black_frame hp hs)
  | red_frame hp hs => exact Or.inr ⟨_, _, _, _, rfl, hs, hp⟩

theorem balance_spec_aux :
    ∀ (m : Nat) (path : List (Frame α)) (focus : Tree α) (n : Nat),
      path.length ≤ m → Balanced focus red n → BalInvP path n →
      lastFrameBlack path →
      ∃ n', Balanced (post_insert_balance focus path) black n' := by
  intro m
  induction m with
  | zero =>
    intro path focus n hlen hf hinv hlast
    have hnil : path = [] := List.eq_nil_of_length_eq_zero (Nat.le_zero.mp hlen)
    subst hnil
    simpa [post_insert_balance] using blackenRoot_balanced hf
  | succ m ih =>
    intro path focus n hlen hf hinv hlast
    match path with
    | [] => simpa [post_insert_balance] using blackenRoot_balanced hf
    | ⟨d, pc, pe, psib⟩ :: rest =>
      cases pc with
      | black =>
        have hfits : PathFits (⟨d, black, pe, psib⟩ :: rest) red n := by
          rcases hinv with h | ⟨d', e', sib', rest', heq, _, _⟩
          · exact h
          · cases heq
        obtain ⟨c', n', hb⟩ := fillPath_balanced hfits hf
        simpa [post_insert_balance] using blackenRoot_balanced hb
      | red =>
        have hctr : ∃ d' e' sib' rest',
            (⟨d, red, pe, psib⟩ :: rest : List (Frame α)) =
              ⟨d', red, e', sib'⟩ :: rest' ∧
            Balanced sib' black n ∧ PathFits rest' red n := by
          rcases hinv with h | hr
          · cases h
          · exact hr
        obtain ⟨d', e', sib', rest', heq, hsib, hrest⟩ := hctr
        simp only [List.cons.injEq, Frame.mk.injEq, true_and, and_true] at heq
        obtain ⟨⟨rfl, rfl, rfl⟩, rfl⟩ := heq
        match rest with
        | [] =>
          exfalso
          have := hlast ⟨d, red, pe, psib⟩ (by simp)
          simp at this
        | ⟨gd, gc, ge, gsib⟩ :: rest2 =>
          cases hrest with
          | black_frame hp2 hs2 =>
            cases hs2 with
            | nil =>
              -- black (NIL) uncle: cases 2 and 3
              cases hf with
              | red hfl hfr =>
                rename_i fl fr fe
                cases gd <;> cases d
                case left.left =>
                  obtain ⟨c', n', hb⟩ := fillPath_balanced hp2
                    (Balanced.black (Balanced.red hfl hfr)
                      (Balanced.red hsib Balanced.nil))
                  simpa [post_insert_balance, uncColor, Tree.rootColor]
                    using blackenRoot_balanced hb
                case left.right =>
                  obtain ⟨c', n', hb⟩ := fillPath_balanced hp2
                    (Balanced.black (Balanced.red hsib hfl)
                      (Balanced.red hfr Balanced.nil))
                  simpa [post_insert_balance, uncColor, Tree.rootColor]
                    using blackenRoot_balanced hb
                case right.left =>
                  obtain ⟨c', n', hb⟩ := fillPath_balanced hp2
                    (Balanced.black (Balanced.red Balanced.nil hfl)
                      (Balanced.red hfr hsib))
                  simpa [post_insert_balance, uncColor, Tree.rootColor]
                    using blackenRoot_balanced hb
                case right.right =>
                  obtain ⟨c', n', hb⟩ := fillPath_balanced hp2
                    (Balanced.black (Balanced.red Balanced.nil hsib)
                      (Balanced.red hfl hfr))
                  simpa [post_insert_balance, uncColor, Tree.rootColor]
                    using blackenRoot_balanced hb
            | red hul hur =>
              -- red uncle: case 1, recolor and recurse two frames up
              rename_i ul ur ue
              have hlen2 : rest2.length ≤ m := by
                simp only [List.length_cons] at hlen
                omega
              have hinv2 : BalInvP rest2 (n + 1) := balInvP_of_pathFits_black hp2
              have hlast2 : lastFrameBlack rest2 :=
                lastFrameBlack_tail (lastFrameBlack_tail hlast)
              cases gd <;> cases d
              case left.left =>
                have hf' := Balanced.red (x := ge)
                  (Balanced.black (x := pe) hf hsib)
                  (Balanced.black (x := ue) hul hur)
                simpa [post_insert_balance, uncColor, Tree.rootColor, Frame.fill,
                  blackenRoot] using ih rest2 _ (n + 1) hlen2 hf' hinv2 hlast2
              case left.right =>
                have hf' := Balanced.red (x := ge)
                  (Balanced.black (x := pe) hsib hf)
                  (Balanced.black (x := ue) hul hur)
                simpa [post_insert_balance, uncColor, Tree.rootColor, Frame.fill,
                  blackenRoot] using ih rest2 _ (n + 1) hlen2 hf' hinv2 hlast2
              case right.left =>
                have hf' := Balanced.red (x := ge)
                  (Balanced.black (x := ue) hul hur)
                  (Balanced.black (x := pe) hf hsib)
                simpa [post_insert_balance, uncColor, Tree.rootColor, Frame.fill,
                  blackenRoot] using ih rest2 _ (n + 1) hlen2 hf' hinv2 hlast2
              case right.right =>
                have hf' := Balanced.red (x := ge)
                  (Balanced.black (x := ue) hul hur)
                  (Balanced.black (x := pe) hsib hf)
                simpa [post_insert_balance, uncColor, Tree.rootColor, Frame.fill,
                  blackenRoot] using ih rest2 _ (n + 1) hlen2 hf' hinv2 hlast2
            | black hul hur =>
              -- black (real node) uncle: cases 2 and 3
              rename_i ul ur uc1 uc2 ue nn
              cases hf with
              | red hfl hfr =>
                rename_i fl fr fe
                cases gd <;> cases d
                case left.left =>
                  obtain ⟨c', n', hb⟩ := fillPath_balanced hp2
                    (Balanced.black (Balanced.red hfl hfr)
                      (Balanced.red hsib (Balanced.black hul hur)))
                  simpa [post_insert_balance, uncColor, Tree.rootColor]
                    using blackenRoot_balanced hb
                case left.right =>
                  obtain ⟨c', n', hb⟩ := fillPath_balanced hp2
                    (Balanced.black (Balanced.red hsib hfl)
                      (Balanced.red hfr (Balanced.black hul hur)))
                  simpa [post_insert_balance, uncColor, Tree.rootColor]
                    using blackenRoot_balanced hb
                case right.left =>
                  obtain ⟨c', n', hb⟩ := fillPath_balanced hp2
                    (Balanced.black (Balanced.red (Balanced.black hul hur) hfl)
                      (Balanced.red hfr hsib))
                  simpa [post_insert_balance, uncColor, Tree.rootColor]
                    using blackenRoot_balanced hb
                case right.right =>
                  obtain ⟨c', n', hb⟩ := fillPath_balanced hp2
                    (Balanced.black (Balanced.red (Balanced.black hul hur) hsib)
                      (Balanced.red hfl hfr))
                  simpa [post_insert_balance, uncColor, Tree.rootColor]
                    using blackenRoot_balanced hb

theorem lastFrameBlack_cons {f : Frame α} {path : List (Frame α)}
    (h : lastFrameBlack path) (hf : path = [] → f.color = black) :
    lastFrameBlack (f :: path) := by
  cases path with
  | nil =>
    intro g hg
    simp only [List.getLast?] at hg
    simp only [Option.mem_def, Option.some.injEq] at hg
    exact hg ▸ hf rfl
  | cons g gs =>
    intro g' hg'
    exact h g' (by simpa using hg')

theorem node_insert_nil_eq {cmp : α → α → Int} {e : α}
    {path : List (Frame α)} :
    node_insert cmp e Tree.nil path = InsRes.attached path := rfl

theorem node_insert_dup_eq {cmp : α → α → Int} {e x : α} {c : Color}
    {l r : Tree α} {path : List (Frame α)} (h0 : cmp e x = 0) :
    node_insert cmp e (Tree.node c x l r) path = InsRes.dup x := by
  conv_lhs => rw [node_insert.eq_def]
  simp only [if_pos h0]

theorem node_insert_right_nil_eq {cmp : α → α → Int} {e x : α} {c : Color}
    {l : Tree α} {path : List (Frame α)} (h0 : ¬cmp e x = 0)
    (hp : 0 < cmp e x) :
    node_insert cmp e (Tree.node c x l Tree.nil) path =
      InsRes.attached (⟨Dir.right, c, x, l⟩ :: path) := by
  conv_lhs => rw [node_insert.eq_def]
  simp only [if_neg h0, if_pos hp]

theorem node_insert_right_go_eq {cmp : α → α → Int} {e x rx : α}
    {c rc : Color} {l rl rr : Tree α} {path : List (Frame α)}
    (h0 : ¬cmp e x = 0) (hp : 0 < cmp e x) :
    node_insert cmp e (Tree.node c x l (Tree.node rc rx rl rr)) path =
      node_insert cmp e (Tree.node rc rx rl rr)
        (⟨Dir.right, c, x, l⟩ :: path) := by
  conv_lhs => rw [node_insert.eq_def]
  simp only [if_neg h0, if_pos hp]

theorem node_insert_left_nil_eq {cmp : α → α → Int} {e x : α} {c : Color}
    {r : Tree α} {path : List (Frame α)} (h0 : ¬cmp e x = 0)
    (hp : ¬0 < cmp e x) :
    node_insert cmp e (Tree.node c x Tree.nil r) path =
      InsRes.attached (⟨Dir.left, c, x, r⟩ :: path) := by
  conv_lhs => rw [node_insert.eq_def]
  simp only [if_neg h0, if_neg hp]

theorem node_insert_left_go_eq {cmp : α → α → Int} {e x lx : α}
    {c lc : Color} {r ll lr : Tree α} {path : List (Frame α)}
    (h0 : ¬cmp e x = 0) (hp : ¬0 < cmp e x) :
    node_insert cmp e (Tree.node c x (Tree.node lc lx ll lr) r) path =
      node_insert cmp e (Tree.node lc lx ll lr)
        (⟨Dir.left, c, x, r⟩ :: path) := by
  conv_lhs => rw [node_insert.eq_def]
  simp only [if_neg h0, if_neg hp]

theorem node_insert_attached_inv {cmp : α → α → Int} {e : α} :
    ∀ (t : Tree α) (path : List (Frame α)) {c : Color} {n : Nat},
      Balanced t c n → PathFits path c n → lastFrameBlack path →
      (path = [] → c = black) →
      ∀ path', node_insert cmp e t path = InsRes.attached path' →
        BalInvP path' 0 ∧ lastFrameBlack path' := by
  intro t
  induction t with
  | nil =>
    intro path c n hb hpf hlast hroot path' heq
    cases hb
    rw [node_insert_nil_eq] at heq
    cases heq
    exact ⟨balInvP_of_pathFits_black hpf, hlast⟩
  | node c0 x l r ihl ihr =>
    intro path c n hb hpf hlast hroot path' heq
    by_cases h0 : cmp e x = 0
    · rw [node_insert_dup_eq h0] at heq
      cases heq
    · by_cases hpos : 0 < cmp e x
      · cases hb with
        | red hl hr =>
          cases r with
          | nil =>
            cases hr
            rw [node_insert_right_nil_eq h0 hpos] at heq
            cases heq
            refine ⟨Or.inr ⟨_, _, _, _, rfl, hl, hpf⟩, ?_⟩
            refine lastFrameBlack_cons hlast fun hp => ?_
            exact absurd (hroot hp) (by intro h; cases h)
          | node rc rx rl rr =>
            rw [node_insert_right_go_eq h0 hpos] at heq
            refine ihr (⟨Dir.right, red, x, l⟩ :: path)
              hr (PathFits.red_frame hpf hl)
              (lastFrameBlack_cons hlast fun hp =>
                absurd (hroot hp) (by intro h; cases h))
              (by intro h; cases h) path' heq
        | black hl hr =>
          cases r with
          | nil =>
            cases hr
            rw [node_insert_right_nil_eq h0 hpos] at heq
            cases heq
            refine ⟨Or.inl (PathFits.black_frame hpf hl), ?_⟩
            exact lastFrameBlack_cons hlast fun _ => rfl
          | node rc rx rl rr =>
            rw [node_insert_right_go_eq h0 hpos] at heq
            refine ihr (⟨Dir.right, black, x, l⟩ :: path)
              hr (PathFits.black_frame hpf hl)
              (lastFrameBlack_cons hlast fun _ => rfl)
              (by intro h; cases h) path' heq
      · cases hb with
        | red hl hr =>
          cases l with
          | nil =>
            cases hl
            rw [node_insert_left_nil_eq h0 hpos] at heq
            cases heq
            refine ⟨Or.inr ⟨_, _, _, _, rfl, hr, hpf⟩, ?_⟩
            refine lastFrameBlack_cons hlast fun hp => ?_
            exact absurd (hroot hp) (by intro h; cases h)
          | node lc lx ll lr =>
            rw [node_insert_left_go_eq h0 hpos] at heq
            refine ihl (⟨Dir.left, red, x, r⟩ :: path)
              hl (PathFits.red_frame hpf hr)
              (lastFrameBlack_cons hlast fun hp =>
                absurd (hroot hp) (by intro h; cases h))
              (by intro h; cases h) path' heq
        | black hl hr =>
          cases l with
          | nil =>
            cases hl
            rw [node_insert_left_nil_eq h0 hpos] at heq
            cases heq
            refine ⟨Or.inl (PathFits.black_frame hpf hr), ?_⟩
            exact lastFrameBlack_cons hlast fun _ => rfl
          | node lc lx ll lr =>
            rw [node_insert_left_go_eq h0 hpos] at heq
            refine ihl (⟨Dir.left, black, x, r⟩ :: path)
              hl (PathFits.black_frame hpf hr)
              (lastFrameBlack_cons hlast fun _ => rfl)
              (by intro h; cases h) path' heq

theorem set_insert_keeps_balanced {cmp : α → α → Int} {s : SetS α} {e : α}
    {n : Nat} (hb : Balanced s.root black n) :
    ∃ n', Balanced (set_insert cmp s e).1.root black n' := by
  cases hroot : s.root with
  | nil =>
    simp only [set_insert, hroot]
    exact ⟨1, Balanced.black Balanced.nil Balanced.nil⟩
  | node c x l r =>
    rw [hroot] at hb
    cases hni : node_insert cmp e (Tree.node c x l r) [] with
    | dup x' =>
      simp only [set_insert, hroot, hni]
      exact ⟨n, hroot ▸ hb⟩
    | attached path' =>
      obtain ⟨hinv, hlast⟩ := node_insert_attached_inv
        (Tree.node c x l r) [] hb (PathFits.nil black n)
        (by intro f hf; simp [List.getLast?] at hf) (fun _ => rfl) path' hni
      obtain ⟨n', hb'⟩ := balance_spec_aux path'.length path'
        (Tree.node red e Tree.nil Tree.nil) 0 le_rfl
        (Balanced.red Balanced.nil Balanced.nil) hinv hlast
      simp only [set_insert, hroot, hni]
      exact ⟨n', hb'⟩

theorem set_insert_all_balanced {cmp : α → α → Int} :
    ∀ (xs : List α) (s : SetS α), (∃ n, Balanced s.root black n) →
      ∃ n', Balanced
        (xs.foldl (fun s x => (set_insert cmp s x).1) s).root black n' := by
  intro xs
  induction xs with
  | nil => exact fun s h => h
  | cons x xs ih =>
    intro s ⟨n, hb⟩
    exact ih _ (set_insert_keeps_balanced hb)

theorem Balanced.to_noRedRed {t : Tree α} {c : Color} {n : Nat}
    (h : Balanced t c n) : noRedRed t = true := by
  induction h with
  | nil => rfl
  | red hl hr ihl ihr =>
    simp [noRedRed, ihl, ihr, hl.rootColor_eq, hr.rootColor_eq]
  | black hl hr ihl ihr =>
    simp [noRedRed, ihl, ihr]

theorem Balanced.to_uniformBlack {t : Tree α} {c : Color} {n : Nat}
    (h : Balanced t c n) : uniformBlack t = some n := by
  induction h with
  | nil => rfl
  | red hl hr ihl ihr => simp [uniformBlack, ihl, ihr]
  | black hl hr ihl ihr => simp [uniformBlack, ihl, ihr]

/- =====================  Claim C1  ===================== -/

/-- C1: for every total-order comparator and every finite sequence of
set_insert calls starting from set_create, the resulting tree satisfies the
red-black invariants checked by the source's own validator: the root is
black, no red node has a red child, and every root-to-sentinel path passes
the same number of black nodes.  Quantifying over all insertion sequences
covers the state after each completed insertion of any longer sequence. -/
theorem set_insert_all_rb_invariants {α : Type} (cmp : α → α → Int)
    (hc : TotalCmp cmp) (xs : List α) :
    (set_insert_all cmp xs).root.rootColor = black ∧
      noRedRed (set_insert_all cmp xs).root = true ∧
      ∃ bc, uniformBlack (set_insert_all cmp xs).root = some bc := by
  obtain ⟨n, hb⟩ := @set_insert_all_balanced α cmp xs set_create
    ⟨0, Balanced.nil⟩
  exact ⟨hb.rootColor_eq, hb.to_noRedRed, n, hb.to_uniformBlack⟩

/- ----------Inorder bookkeeping for insertion and search---------- -/

theorem blackenRoot_inorder (t : Tree α) :
    inorder (blackenRoot t) = inorder t := by
  cases t <;> rfl

theorem fillPath_inorder_congr :
    ∀ (path : List (Frame α)) (t1 t2 : Tree α), inorder t1 = inorder t2 →
      inorder (fillPath t1 path) = inorder (fillPath t2 path) := by
  intro path
  induction path with
  | nil => exact fun t1 t2 h => h
  | cons f rest ih =>
    intro t1 t2 h
    refine ih _ _ ?_
    cases hd : f.d <;> simp [Frame.fill, hd, inorder, h]

theorem post_insert_balance_inorder :
    ∀ (m : Nat) (path : List (Frame α)) (focus : Tree α),
      path.length ≤ m → focus ≠ Tree.nil →
      inorder (post_insert_balance focus path) =
        inorder (fillPath focus path) := by
  intro m
  induction m with
  | zero =>
    intro path focus hlen hfocus
    have hnil : path = [] := List.eq_nil_of_length_eq_zero (Nat.le_zero.mp hlen)
    subst hnil
    simp [post_insert_balance, fillPath, blackenRoot_inorder]
  | succ m ih =>
    intro path focus hlen hfocus
    match path with
    | [] => simp [post_insert_balance, fillPath, blackenRoot_inorder]
    | ⟨d, pc, pe, psib⟩ :: rest =>
      cases pc with
      | black => simp [post_insert_balance, blackenRoot_inorder]
      | red =>
        match rest with
        | [] => simp [post_insert_balance, blackenRoot_inorder]
        | ⟨gd, gc, ge, gsib⟩ :: rest2 =>
          have hlen2 : rest2.length ≤ m := by
            simp only [List.length_cons] at hlen
            omega
          cases focus with
          | nil => exact absurd rfl hfocus
          | node fc fe fl fr =>
            cases gsib with
            | nil =>
              cases gd <;> cases d <;>
                · simp only [post_insert_balance, uncColor, Tree.rootColor]
                  rw [blackenRoot_inorder]
                  refine fillPath_inorder_congr rest2 _ _ ?_
                  simp [Frame.fill, inorder, blackenRoot]
            | node uc ue ul ur =>
              cases uc with
              | black =>
                cases gd <;> cases d <;>
                  · simp only [post_insert_balance, uncColor, Tree.rootColor]
                    rw [blackenRoot_inorder]
                    refine fillPath_inorder_congr rest2 _ _ ?_
                    simp [Frame.fill, inorder, blackenRoot]
              | red =>
                cases gd <;> cases d <;>
                  · simp only [post_insert_balance, uncColor, Tree.rootColor]
                    rw [ih rest2 _ hlen2 (by simp)]
                    refine fillPath_inorder_congr rest2 _ _ ?_
                    simp [Frame.fill, inorder, blackenRoot]

theorem node_search_nil_eq {cmp : α → α → Int} {e : α} :
    node_search cmp e Tree.nil = Tree.nil := rfl

theorem node_search_right_eq {cmp : α → α → Int} {e x : α} {c : Color}
    {l r : Tree α} (hp : 0 < cmp e x) :
    node_search cmp e (Tree.node c x l r) = node_search cmp e r := by
  conv_lhs => rw [node_search.eq_def]
  simp only [if_pos hp]

theorem node_search_left_eq {cmp : α → α → Int} {e x : α} {c : Color}
    {l r : Tree α} (hp : ¬0 < cmp e x) (hn : cmp e x < 0) :
    node_search cmp e (Tree.node c x l r) = node_search cmp e l := by
  conv_lhs => rw [node_search.eq_def]
  simp only [if_neg hp, if_pos hn]

theorem node_search_found_eq {cmp : α → α → Int} {e x : α} {c : Color}
    {l r : Tree α} (hp : ¬0 < cmp e x) (hn : ¬cmp e x < 0) :
    node_search cmp e (Tree.node c x l r) = Tree.node c x l r := by
  conv_lhs => rw [node_search.eq_def]
  simp only [if_neg hp, if_neg hn]

theorem node_search_spec {cmp : α → α → Int} (hc : TotalCmp cmp) {e : α} :
    ∀ t : Tree α, Ordered cmp t →
      (node_search cmp e t = Tree.nil → ∀ x ∈ inorder t, cmp e x ≠ 0) ∧
      (∀ c x l r, node_search cmp e t = Tree.node c x l r →
        cmp e x = 0 ∧ x ∈ inorder t) := by
  intro t
  induction t with
  | nil =>
    intro _
    constructor
    · intro _ x hx
      simp [inorder] at hx
    · intro c x l r h
      cases h
  | node c0 x0 l r ihl ihr =>
    intro hord
    obtain ⟨hlx, hxr, hol, hor⟩ := hord
    by_cases hp : 0 < cmp e x0
    · obtain ⟨ih1, ih2⟩ := ihr hor
      constructor
      · intro hnil y hy
        rw [node_search_right_eq hp] at hnil
        simp only [inorder, List.mem_append, List.mem_cons] at hy
        rcases hy with hy | rfl | hy
        · have h1 : cmp x0 e < 0 := (hc.sign_swap e x0).mp hp
          have h2 := hc.lt_trans (hlx y hy) h1
          have := (hc.sign_swap e y).mpr h2
          omega
        · omega
        · exact ih1 hnil y hy
      · intro c x l' r' hfind
        rw [node_search_right_eq hp] at hfind
        obtain ⟨h1, h2⟩ := ih2 c x l' r' hfind
        exact ⟨h1, by simp [inorder, h2]⟩
    · by_cases hn : cmp e x0 < 0
      · obtain ⟨ih1, ih2⟩ := ihl hol
        constructor
        · intro hnil y hy
          rw [node_search_left_eq hp hn] at hnil
          simp only [inorder, List.mem_append, List.mem_cons] at hy
          rcases hy with hy | rfl | hy
          · exact ih1 hnil y hy
          · omega
          · have h2 := hc.lt_trans hn (hxr y hy)
            omega
        · intro c x l' r' hfind
          rw [node_search_left_eq hp hn] at hfind
          obtain ⟨h1, h2⟩ := ih2 c x l' r' hfind
          exact ⟨h1, by simp [inorder, h2]⟩
      · constructor
        · intro hnil
          rw [node_search_found_eq hp hn] at hnil
          cases hnil
        · intro c x l' r' hfind
          rw [node_search_found_eq hp hn] at hfind
          injection hfind with _ h2 _ _
          subst h2
          exact ⟨by omega, by simp [inorder]⟩

theorem node_insert_descent {cmp : α → α → Int} (hc : TotalCmp cmp) {e : α} :
    ∀ (t : Tree α) (path : List (Frame α)), Ordered cmp t →
      (∀ x, node_insert cmp e t path = InsRes.dup x →
        cmp e x = 0 ∧ x ∈ inorder t) ∧
      (∀ path', node_insert cmp e t path = InsRes.attached path' →
        ∃ t' A B,
          fillPath (Tree.node red e Tree.nil Tree.nil) path' =
            fillPath t' path ∧
          inorder t' = A ++ e :: B ∧ inorder t = A ++ B ∧
          (∀ a ∈ A, cmp a e < 0) ∧ (∀ b ∈ B, cmp e b < 0)) := by
  intro t
  induction t with
  | nil =>
    intro path _
    constructor
    · intro x h
      rw [node_insert_nil_eq] at h
      cases h
    · intro path' h
      rw [node_insert_nil_eq] at h
      cases h
      exact ⟨Tree.node red e Tree.nil Tree.nil, [], [], rfl, rfl, rfl,
        by simp, by simp⟩
  | node c0 x0 l r ihl ihr =>
    intro path hord
    obtain ⟨hlx, hxr, hol, hor⟩ := hord
    by_cases h0 : cmp e x0 = 0
    · constructor
      · intro x h
        rw [node_insert_dup_eq h0] at h
        cases h
        exact ⟨h0, by simp [inorder]⟩
      · intro path' h
        rw [node_insert_dup_eq h0] at h
        cases h
    · by_cases hp : 0 < cmp e x0
      · have hx0e : cmp x0 e < 0 := (hc.sign_swap e x0).mp hp
        cases r with
        | nil =>
          constructor
          · intro x h
            rw [node_insert_right_nil_eq h0 hp] at h
            cases h
          · intro path' h
            rw [node_insert_right_nil_eq h0 hp] at h
            cases h
            refine ⟨Tree.node c0 x0 l (Tree.node red e Tree.nil Tree.nil),
              inorder l ++ [x0], [], rfl, by simp [inorder],
              by simp [inorder], ?_, by simp⟩
            intro a ha
            simp only [List.mem_append, List.mem_singleton] at ha
            rcases ha with ha | rfl
            · exact hc.lt_trans (hlx a ha) hx0e
            · exact hx0e
        | node rc rx rl rr =>
          obtain ⟨ih1, ih2⟩ := ihr (⟨Dir.right, c0, x0, l⟩ :: path) hor
          constructor
          · intro x h
            rw [node_insert_right_go_eq h0 hp] at h
            obtain ⟨h1, h2⟩ := ih1 x h
            refine ⟨h1, ?_⟩
            simp only [inorder, List.mem_append, List.mem_cons] at h2 ⊢
            tauto
          · intro path' h
            rw [node_insert_right_go_eq h0 hp] at h
            obtain ⟨t', A', B', hfill, hins, hold, hA, hB⟩ := ih2 path' h
            refine ⟨Tree.node c0 x0 l t', inorder l ++ x0 :: A', B',
              hfill,
              by show inorder l ++ x0 :: inorder t' = _
                 rw [hins]; simp,
              by show inorder l ++ x0 :: inorder (Tree.node rc rx rl rr) = _
                 rw [hold]; simp, ?_, hB⟩
            intro a ha
            simp only [List.mem_append, List.mem_cons] at ha
            rcases ha with ha | rfl | ha
            · exact hc.lt_trans (hlx a ha) hx0e
            · exact hx0e
            · exact hA a ha
      · have hn : cmp e x0 < 0 := by omega
        cases l with
        | nil =>
          constructor
          · intro x h
            rw [node_insert_left_nil_eq h0 hp] at h
            cases h
          · intro path' h
            rw [node_insert_left_nil_eq h0 hp] at h
            cases h
            refine ⟨Tree.node c0 x0 (Tree.node red e Tree.nil Tree.nil) r,
              [], x0 :: inorder r, rfl, by simp [inorder],
              by simp [inorder], by simp, ?_⟩
            intro b hb
            simp only [List.mem_cons] at hb
            rcases hb with rfl | hb
            · exact hn
            · exact hc.lt_trans hn (hxr b hb)
        | node lc lx ll lr =>
          obtain ⟨ih1, ih2⟩ := ihl (⟨Dir.left, c0, x0, r⟩ :: path) hol
          constructor
          · intro x h
            rw [node_insert_left_go_eq h0 hp] at h
            obtain ⟨h1, h2⟩ := ih1 x h
            refine ⟨h1, ?_⟩
            simp only [inorder, List.mem_append, List.mem_cons] at h2 ⊢
            tauto
          · intro path' h
            rw [node_insert_left_go_eq h0 hp] at h
            obtain ⟨t', A', B', hfill, hins, hold, hA, hB⟩ := ih2 path' h
            refine ⟨Tree.node c0 x0 t' r, A', B' ++ x0 :: inorder r,
              hfill,
              by show inorder t' ++ x0 :: inorder r = _
                 rw [hins]; simp,
              by show inorder (Tree.node lc lx ll lr) ++ x0 :: inorder r = _
                 rw [hold]; simp, hA, ?_⟩
            intro b hb
            simp only [List.mem_append, List.mem_cons] at hb
            rcases hb with hb | rfl | hb
            · exact hB b hb
            · exact hn
            · exact hc.lt_trans hn (hxr b hb)

/-- Master specification of set_insert on a binary-search-ordered tree:
an equal element already present is returned and the set is untouched;
otherwise NULL is returned, the length grows by one, and the new element's
payload lands at its comparator position in the in-order sequence. -/
theorem set_insert_spec {cmp : α → α → Int} (hc : TotalCmp cmp)
    {s : SetS α} (hord : Ordered cmp s.root) (e : α) :
    ((∃ x ∈ inorder s.root, cmp e x = 0) →
      ∃ x, x ∈ inorder s.root ∧ cmp e x = 0 ∧
        set_insert cmp s e = (s, some x)) ∧
    ((∀ x ∈ inorder s.root, cmp e x ≠ 0) →
      (set_insert cmp s e).2 = none ∧
      (set_insert cmp s e).1.length = s.length + 1 ∧
      (set_insert cmp s e).1.n_iterators = s.n_iterators ∧
      ∃ A B, inorder s.root = A ++ B ∧
        (∀ a ∈ A, cmp a e < 0) ∧ (∀ b ∈ B, cmp e b < 0) ∧
        inorder (set_insert cmp s e).1.root = A ++ e :: B) := by
  cases hroot : s.root with
  | nil =>
    constructor
    · intro ⟨x, hx, _⟩
      simp [inorder] at hx
    · intro _
      refine ⟨by simp [set_insert, hroot], by simp [set_insert, hroot],
        by simp [set_insert, hroot], [], [], by simp [hroot, inorder],
        by simp, by simp, ?_⟩
      simp [set_insert, hroot, inorder]
  | node c x0 l r =>
    rw [hroot] at hord
    have hdes := node_insert_descent hc (e := e) (Tree.node c x0 l r) [] hord
    constructor
    · intro ⟨x, hx, hcmp⟩
      cases hni : node_insert cmp e (Tree.node c x0 l r) [] with
      | dup x' =>
        obtain ⟨h1, h2⟩ := hdes.1 x' hni
        refine ⟨x', h2, h1, ?_⟩
        simp [set_insert, hroot, hni]
      | attached path' =>
        obtain ⟨t', A, B, _, _, hold, hA, hB⟩ := hdes.2 path' hni
        exfalso
        rw [hold] at hx
        rcases List.mem_append.mp hx with hxa | hxb
        · have := hA x hxa
          have := (hc.zero_swap e x).mp hcmp
          omega
        · have := hB x hxb
          omega
    · intro hno
      cases hni : node_insert cmp e (Tree.node c x0 l r) [] with
      | dup x' =>
        obtain ⟨h1, h2⟩ := hdes.1 x' hni
        exact absurd h1 (hno x' h2)
      | attached path' =>
        obtain ⟨t', A, B, hfill, hins, hold, hA, hB⟩ := hdes.2 path' hni
        refine ⟨by simp [set_insert, hroot, hni],
          by simp [set_insert, hroot, hni],
          by simp [set_insert, hroot, hni], A, B, hold, hA, hB, ?_⟩
        have hbal := post_insert_balance_inorder path'.length path'
          (Tree.node red e Tree.nil Tree.nil) le_rfl (by simp)
        simp only [set_insert, hroot, hni]
        rw [hbal, hfill]
        simpa [fillPath] using hins

theorem ordered_iff_pairwise {cmp : α → α → Int} (hc : TotalCmp cmp) :
    ∀ t : Tree α, Ordered cmp t ↔ SortedCmp cmp (inorder t) := by
  intro t
  induction t with
  | nil => simp [Ordered, SortedCmp, inorder]
  | node c x l r ihl ihr =>
    simp only [Ordered, SortedCmp, inorder, List.pairwise_append,
      List.pairwise_cons, List.mem_cons]
    constructor
    · rintro ⟨hlx, hxr, hol, hor⟩
      refine ⟨(ihl.mp hol : SortedCmp cmp (inorder l)),
        ⟨hxr, (ihr.mp hor : SortedCmp cmp (inorder r))⟩, ?_⟩
      intro a ha b hb
      rcases hb with rfl | hb
      · exact hlx a ha
      · exact hc.lt_trans (hlx a ha) (hxr b hb)
    · rintro ⟨hpl, ⟨hxb, hpr⟩, hcross⟩
      refine ⟨fun a ha => hcross a ha x (Or.inl rfl), hxb,
        ihl.mpr hpl, ihr.mpr hpr⟩

theorem set_insert_preserves_inv {cmp : α → α → Int} (hc : TotalCmp cmp)
    {s : SetS α} (hinv : SetInv cmp s) (e : α) :
    SetInv cmp (set_insert cmp s e).1 := by
  obtain ⟨hord, hlen⟩ := hinv
  by_cases hex : ∃ x ∈ inorder s.root, cmp e x = 0
  · obtain ⟨x, _, _, heq⟩ := (set_insert_spec hc hord e).1 hex
    rw [heq]
    exact ⟨hord, hlen⟩
  · push_neg at hex
    have hno : ∀ x ∈ inorder s.root, cmp e x ≠ 0 := hex
    obtain ⟨_, hlen', _, A, B, hsplit, hA, hB, hnew⟩ :=
      (set_insert_spec hc hord e).2 hno
    constructor
    · rw [ordered_iff_pairwise hc, SortedCmp, hnew]
      have hold := (ordered_iff_pairwise hc s.root).mp hord
      rw [SortedCmp, hsplit, List.pairwise_append] at hold
      obtain ⟨hpA, hpB, hcross⟩ := hold
      rw [List.pairwise_append]
      refine ⟨hpA, ?_, ?_⟩
      · rw [List.pairwise_cons]
        exact ⟨hB, hpB⟩
      · intro a ha b hb
        rcases List.mem_cons.mp hb with rfl | hb
        · exact hA a ha
        · exact hcross a ha b hb
    · rw [hlen', hnew, hlen, hsplit]
      simp only [List.length_append, List.length_cons]
      omega

theorem foldl_insert_inv {cmp : α → α → Int} (hc : TotalCmp cmp) :
    ∀ (xs : List α) (s : SetS α), SetInv cmp s →
      SetInv cmp (xs.foldl (fun s x => (set_insert cmp s x).1) s) := by
  intro xs
  induction xs with
  | nil => exact fun s h => h
  | cons x xs ih => exact fun s h => ih _ (set_insert_preserves_inv hc h x)

theorem set_insert_all_inv {cmp : α → α → Int} (hc : TotalCmp cmp)
    (xs : List α) : SetInv cmp (set_insert_all cmp xs) :=
  foldl_insert_inv hc xs set_create ⟨trivial, rfl⟩

theorem compare_integers_total : TotalCmp compare_integers := by
  constructor
  · intro a b
    simp only [compare_integers]
    omega
  · intro a b c
    simp only [compare_integers]
    omega

/-- Witness for C1: the integer comparator is a total order, and the
invariants hold for a concrete insertion sequence. -/
theorem set_insert_all_rb_invariants_witness :
    TotalCmp compare_integers ∧
      (set_insert_all compare_integers [3, 1, 2, 5, 4]).root.rootColor
          = black ∧
      noRedRed (set_insert_all compare_integers [3, 1, 2, 5, 4]).root
          = true ∧
      ∃ bc, uniformBlack (set_insert_all compare_integers [3, 1, 2, 5, 4]).root
          = some bc :=
  ⟨compare_integers_total,
    set_insert_all_rb_invariants compare_integers compare_integers_total
      [3, 1, 2, 5, 4]⟩

/- =====================  Claim C4  ===================== -/

/-- C4: on a binary-search-ordered set, set_get returns some stored element
comparing equal to the query exactly when one exists, and the explicit
absent result (NULL, i.e. `none`) otherwise. -/
theorem set_get_found_iff {α : Type} {cmp : α → α → Int} (hc : TotalCmp cmp)
    (s : SetS α) (hord : Ordered cmp s.root) (e : α) :
    ((∃ x ∈ inorder s.root, cmp e x = 0) →
      ∃ x, set_get cmp s e = some x ∧ cmp e x = 0 ∧ x ∈ inorder s.root) ∧
    ((¬∃ x ∈ inorder s.root, cmp e x = 0) → set_get cmp s e = none) := by
  obtain ⟨hs1, hs2⟩ := node_search_spec hc (e := e) s.root hord
  constructor
  · intro ⟨x, hx, hcmp⟩
    cases hns : node_search cmp e s.root with
    | nil => exact absurd hcmp (hs1 hns x hx)
    | node c x' l r =>
      obtain ⟨h1, h2⟩ := hs2 c x' l r hns
      exact ⟨x', by simp [set_get, hns], h1, h2⟩
  · intro hnone
    cases hns : node_search cmp e s.root with
    | nil => simp [set_get, hns]
    | node c x' l r =>
      obtain ⟨h1, h2⟩ := hs2 c x' l r hns
      exact absurd ⟨x', h2, h1⟩ hnone

/-- Witness for C4 on a concrete ordered set: both the present and the
absent query behave as stated. -/
theorem set_get_found_iff_witness :
    TotalCmp compare_integers ∧
      Ordered compare_integers
        (set_insert_all compare_integers [2, 1, 3]).root ∧
      ((∃ x ∈ inorder (set_insert_all compare_integers [2, 1, 3]).root,
          compare_integers 3 x = 0) →
        ∃ x, set_get compare_integers
              (set_insert_all compare_integers [2, 1, 3]) 3 = some x ∧
            compare_integers 3 x = 0 ∧
            x ∈ inorder (set_insert_all compare_integers [2, 1, 3]).root) ∧
      ((¬∃ x ∈ inorder (set_insert_all compare_integers [2, 1, 3]).root,
          compare_integers 3 x = 0) →
        set_get compare_integers
          (set_insert_all compare_integers [2, 1, 3]) 3 = none) :=
  ⟨compare_integers_total, by decide,
    set_get_found_iff compare_integers_total
      (set_insert_all compare_integers [2, 1, 3]) (by decide) 3⟩

/- =====================  Claim C3  ===================== -/

/-- C3: inserting an element equal (under the comparator) to a stored one
returns that stored element and leaves the set - root tree, length and
counter - completely unchanged; inserting a fresh element returns NULL and
grows set_length by exactly one. -/
theorem set_insert_duplicate_spec {α : Type} {cmp : α → α → Int}
    (hc : TotalCmp cmp) (s : SetS α) (hord : Ordered cmp s.root) (e : α) :
    ((∃ x ∈ inorder s.root, cmp e x = 0) →
      ∃ x, x ∈ inorder s.root ∧ cmp e x = 0 ∧
        set_insert cmp s e = (s, some x)) ∧
    ((¬∃ x ∈ inorder s.root, cmp e x = 0) →
      (set_insert cmp s e).2 = none ∧
      set_length (set_insert cmp s e).1 = set_length s + 1) := by
  constructor
  · exact (set_insert_spec hc hord e).1
  · intro hnone
    push_neg at hnone
    obtain ⟨h1, h2, _⟩ := (set_insert_spec hc hord e).2 hnone
    exact ⟨h1, h2⟩

/-- Witness for C3: a duplicate insert into a concrete set returns the
stored element and changes nothing; a fresh insert returns none and bumps
the length. -/
theorem set_insert_duplicate_spec_witness :
    TotalCmp compare_integers ∧
      Ordered compare_integers
        (set_insert_all compare_integers [2, 1, 3]).root ∧
      ((∃ x ∈ inorder (set_insert_all compare_integers [2, 1, 3]).root,
          compare_integers 2 x = 0) →
        ∃ x, x ∈ inorder (set_insert_all compare_integers [2, 1, 3]).root ∧
          compare_integers 2 x = 0 ∧
          set_insert compare_integers
              (set_insert_all compare_integers [2, 1, 3]) 2 =
            (set_insert_all compare_integers [2, 1, 3], some x)) ∧
      ((¬∃ x ∈ inorder (set_insert_all compare_integers [2, 1, 3]).root,
          compare_integers 2 x = 0) →
        (set_insert compare_integers
            (set_insert_all compare_integers [2, 1, 3]) 2).2 = none ∧
        set_length (set_insert compare_integers
            (set_insert_all compare_integers [2, 1, 3]) 2).1 =
          set_length (set_insert_all compare_integers [2, 1, 3]) + 1) :=
  ⟨compare_integers_total, by decide,
    set_insert_duplicate_spec compare_integers_total
      (set_insert_all compare_integers [2, 1, 3]) (by decide) 2⟩

/- ------------Heap and pointer lemmas for the Morris proofs------------ -/

theorem hwrite_same (h : Heap α) (k : Ptr) (v : HNode α) :
    hwrite h k v k = v := by
  simp [hwrite]

theorem hwrite_other (h : Heap α) (k : Ptr) (v : HNode α) {k' : Ptr}
    (hne : k' ≠ k) : hwrite h k v k' = h k' := by
  simp [hwrite, Function.update, hne]

theorem hnode_eta (n : HNode α) : { n with right := n.right } = n := by
  cases n
  rfl

theorem hwrite_hwrite (h : Heap α) (k : Ptr) (a b : HNode α) :
    hwrite (hwrite h k a) k b = hwrite h k b := by
  funext p
  by_cases hp : p = k
  · subst hp
    simp [hwrite]
  · simp [hwrite, Function.update, hp]

theorem hwrite_self (h : Heap α) (k : Ptr) : hwrite h k (h k) = h := by
  funext p
  by_cases hp : p = k
  · subst hp
    simp [hwrite]
  · simp [hwrite, Function.update, hp]

theorem append_ne_of_len_lt {p q : Pos} (s : Pos)
    (h : p.length < q.length) : q ++ s ≠ p := by
  intro heq
  have := congrArg List.length heq
  simp [List.length_append] at this
  omega

theorem sibling_append_ne (q : Pos) (d1 d2 : Dir) (hne : d1 ≠ d2)
    (s s' : Pos) : (q ++ [d1]) ++ s ≠ (q ++ [d2]) ++ s' := by
  intro heq
  rw [List.append_assoc, List.append_assoc] at heq
  have := List.append_cancel_left heq
  simp at this
  exact hne this.1

theorem subtreeAt_child {T : Tree α} :
    ∀ {p : Pos} {c : Color} {x : α} {l r : Tree α},
      subtreeAt T p = some (Tree.node c x l r) →
      subtreeAt T (p ++ [Dir.left]) = some l ∧
        subtreeAt T (p ++ [Dir.right]) = some r := by
  intro p
  induction p generalizing T with
  | nil =>
    intro c x l r h
    simp only [subtreeAt] at h
    cases h
    constructor <;> simp [subtreeAt]
  | cons d p ih =>
    intro c x l r h
    cases T with
    | nil => simp [subtreeAt] at h
    | node c0 x0 l0 r0 =>
      cases d with
      | left =>
        simp only [subtreeAt] at h
        simpa [subtreeAt] using ih (T := l0) h
      | right =>
        simp only [subtreeAt] at h
        simpa [subtreeAt] using ih (T := r0) h

theorem mkHeap_repr_aux (T : Tree α) :
    ∀ (t : Tree α) (p : Pos), subtreeAt T p = some t →
      Repr (mkHeap T) t p (if p = [] then none else some p.dropLast) none := by
  intro t
  induction t with
  | nil => intro p _; trivial
  | node c x l r ihl ihr =>
    intro p hp
    obtain ⟨hl, hr⟩ := subtreeAt_child hp
    refine ⟨?_, ?_, ?_⟩
    · show mkHeap T (some p) = _
      simp only [mkHeap, hp]
      congr 1
      cases r <;> simp [childPtr, exitPtr]
    · have := ihl (p ++ [Dir.left]) hl
      simpa [List.dropLast_concat] using this
    · have := ihr (p ++ [Dir.right]) hr
      simpa [List.dropLast_concat] using this

theorem mkHeap_repr (T : Tree α) : Repr (mkHeap T) T [] none none := by
  simpa using mkHeap_repr_aux T T [] (by cases T <;> rfl)

theorem Repr_write_outside :
    ∀ (t : Tree α) (p : Pos) (par exit : Ptr) (h : Heap α) (k : Ptr)
      (v : HNode α),
      Repr h t p par exit → (∀ s : Pos, k ≠ some (p ++ s)) →
      Repr (hwrite h k v) t p par exit := by
  intro t
  induction t with
  | nil => intro p par exit h k v _ _; trivial
  | node c x l r ihl ihr =>
    intro p par exit h k v hr hk
    obtain ⟨h1, h2, h3⟩ := hr
    refine ⟨?_, ?_, ?_⟩
    · rw [hwrite_other h k v (by simpa using (hk []).symm)]
      exact h1
    · refine ihl _ _ _ _ _ _ h2 ?_
      intro s
      rw [List.append_assoc]
      exact hk ([Dir.left] ++ s)
    · refine ihr _ _ _ _ _ _ h3 ?_
      intro s
      rw [List.append_assoc]
      exact hk ([Dir.right] ++ s)

theorem rmPos_suffix : ∀ (t : Tree α) (q : Pos), ∃ s : Pos,
    rmPos t q = q ++ s := by
  intro t
  induction t with
  | nil => exact fun q => ⟨[], by simp [rmPos]⟩
  | node c x l r ihl ihr =>
    intro q
    cases r with
    | nil => exact ⟨[], by simp [rmPos]⟩
    | node rc rx rl rr =>
      obtain ⟨s, hs⟩ := ihr (q ++ [Dir.right])
      exact ⟨[Dir.right] ++ s, by simp [rmPos, hs, List.append_assoc]⟩

theorem Repr_setExit :
    ∀ (t : Tree α) (q : Pos) (par exit e' : Ptr) (h : Heap α),
      Repr h t q par exit → t ≠ Tree.nil →
      Repr (hwrite h (some (rmPos t q))
          { h (some (rmPos t q)) with right := e' }) t q par e' := by
  intro t
  induction t with
  | nil => intro q par exit e' h _ hne; exact absurd rfl hne
  | node c x l r ihl ihr =>
    intro q par exit e' h hr _
    obtain ⟨h1, h2, h3⟩ := hr
    cases r with
    | nil =>
      have hrm : rmPos (Tree.node c x l Tree.nil) q = q := by simp [rmPos]
      rw [hrm]
      refine ⟨?_, ?_, trivial⟩
      · rw [hwrite_same, h1]
        rfl
      · refine Repr_write_outside _ _ _ _ _ _ _ h2 ?_
        intro s
        intro heq
        injection heq with heq
        have := congrArg List.length heq
        simp [List.length_append] at this
    | node rc rx rl rr =>
      have hrm : rmPos (Tree.node c x l (Tree.node rc rx rl rr)) q =
          rmPos (Tree.node rc rx rl rr) (q ++ [Dir.right]) := by
        simp [rmPos]
      rw [hrm]
      obtain ⟨s, hs⟩ := rmPos_suffix (Tree.node rc rx rl rr) (q ++ [Dir.right])
      refine ⟨?_, ?_, ?_⟩
      · rw [hwrite_other]
        · exact h1
        · rw [hs]
          intro heq
          injection heq with heq
          have := congrArg List.length heq
          simp [List.length_append] at this
      · refine Repr_write_outside _ _ _ _ _ _ _ h2 ?_
        intro s'
        rw [hs]
        intro heq
        injection heq with heq
        exact sibling_append_ne q Dir.right Dir.left (by simp) s s' heq
      · exact ihr (q ++ [Dir.right]) (some q) exit e' h h3 (by simp)

theorem findPre_ne_none (h : Heap α) (curr : Ptr) :
    ∀ (fuel : Nat) (pre : Ptr), pre ≠ none →
      findPre h curr fuel pre ≠ none := by
  intro fuel
  induction fuel with
  | zero => exact fun pre hp => hp
  | succ fuel ih =>
    intro pre hp
    rw [findPre]
    by_cases hc : (h pre).right ≠ none ∧ (h pre).right ≠ curr
    · rw [if_pos hc]
      exact ih _ hc.1
    · rw [if_neg hc]
      exact hp

theorem findPre_spec :
    ∀ (t : Tree α) (q : Pos) (par exit curr : Ptr) (h : Heap α),
      Repr h t q par exit → t ≠ Tree.nil →
      (exit = none ∨ exit = curr) →
      (∀ r : Pos, q.length ≤ r.length → some r ≠ curr) →
      ∀ fuel, size t ≤ fuel →
        findPre h curr fuel (some q) = some (rmPos t q) := by
  intro t
  induction t with
  | nil => intro q par exit curr h _ hne; exact absurd rfl hne
  | node c x l r ihl ihr =>
    intro q par exit curr h hr _ hexit hlen fuel hfuel
    obtain ⟨h1, h2, h3⟩ := hr
    cases r with
    | nil =>
      have hrm : rmPos (Tree.node c x l Tree.nil) q = q := by simp [rmPos]
      rw [hrm]
      have hright : (h (some q)).right = exit := by rw [h1]; rfl
      match fuel, hfuel with
      | fuel + 1, _ =>
        rcases hexit with rfl | rfl <;> simp [findPre, hright]
    | node rc rx rl rr =>
      have hrm : rmPos (Tree.node c x l (Tree.node rc rx rl rr)) q =
          rmPos (Tree.node rc rx rl rr) (q ++ [Dir.right]) := by
        simp [rmPos]
      rw [hrm]
      have hright : (h (some q)).right = some (q ++ [Dir.right]) := by
        rw [h1]; rfl
      match fuel, hfuel with
      | fuel + 1, hfuel =>
        have hcond : (h (some q)).right ≠ none ∧ (h (some q)).right ≠ curr := by
          rw [hright]
          exact ⟨by simp, hlen (q ++ [Dir.right]) (by simp)⟩
        rw [findPre, if_pos hcond, hright]
        refine ihr (q ++ [Dir.right]) (some q) exit curr h h3 (by simp)
          hexit ?_ fuel ?_
        · intro r hrlen
          refine hlen r ?_
          simp at hrlen
          omega
        · simp only [size] at hfuel ⊢
          omega

theorem Repr_rm_right :
    ∀ (t : Tree α) (q : Pos) (par exit : Ptr) (h : Heap α),
      Repr h t q par exit → t ≠ Tree.nil →
      (h (some (rmPos t q))).right = exit := by
  intro t
  induction t with
  | nil => intro q par exit h _ hne; exact absurd rfl hne
  | node c x l r ihl ihr =>
    intro q par exit h hr _
    obtain ⟨h1, h2, h3⟩ := hr
    cases r with
    | nil =>
      have hrm : rmPos (Tree.node c x l Tree.nil) q = q := by simp [rmPos]
      rw [hrm, h1]
      rfl
    | node rc rx rl rr =>
      have hrm : rmPos (Tree.node c x l (Tree.node rc rx rl rr)) q =
          rmPos (Tree.node rc rx rl rr) (q ++ [Dir.right]) := by
        simp [rmPos]
      rw [hrm]
      exact ihr (q ++ [Dir.right]) (some q) exit h h3 (by simp)

theorem call_left_nil {c : Color} {x : α} {r : Tree α} {p : Pos}
    {par exit : Ptr} {h : Heap α}
    (hr : Repr h (Tree.node c x Tree.nil r) p par exit) :
    ∀ fuel, 1 ≤ fuel →
      next_node_inorder h (some p) fuel =
        (h, exitPtr r (p ++ [Dir.right]) exit, some p) := by
  intro fuel hfuel
  obtain ⟨h1, _, _⟩ := hr
  match fuel, hfuel with
  | fuel + 1, _ =>
    have hleft : (h (some p)).left = none := by rw [h1]; rfl
    have hright : (h (some p)).right = exitPtr r (p ++ [Dir.right]) exit := by
      rw [h1]
    simp [next_node_inorder, morrisLoop, morrisStep, hleft, hright]

theorem call_install {c : Color} {x : α} {l r : Tree α} {p : Pos}
    {par exit : Ptr} {h : Heap α}
    (hr : Repr h (Tree.node c x l r) p par exit) (hl : l ≠ Tree.nil) :
    ∀ fuel, size l + 1 ≤ fuel →
      next_node_inorder h (some p) fuel =
        morrisLoop
          (hwrite h (some (rmPos l (p ++ [Dir.left])))
            ({ h (some (rmPos l (p ++ [Dir.left]))) with right := some p }))
          (some (p ++ [Dir.left])) (fuel - 1) := by
  intro fuel hfuel
  obtain ⟨h1, h2, h3⟩ := hr
  match fuel, hfuel with
  | fuel + 1, hfuel =>
    obtain ⟨lc, lx, ll, lr, rfl⟩ : ∃ lc lx ll lr,
        l = Tree.node lc lx ll lr := by
      cases l with
      | nil => exact absurd rfl hl
      | node lc lx ll lr => exact ⟨lc, lx, ll, lr, rfl⟩
    have hleft : (h (some p)).left = some (p ++ [Dir.left]) := by
      rw [h1]; rfl
    have hpre : findPre h (some p) fuel (some (p ++ [Dir.left])) =
        some (rmPos (Tree.node lc lx ll lr) (p ++ [Dir.left])) := by
      refine findPre_spec _ _ (some p) none (some p) h h2 (by simp)
        (Or.inl rfl) ?_ fuel (by omega)
      intro r' hrl heq
      injection heq with heq
      have hlen2 := congrArg List.length heq
      simp [List.length_append] at hlen2 hrl
      omega
    have hrmr : (h (some (rmPos (Tree.node lc lx ll lr)
        (p ++ [Dir.left])))).right = none :=
      Repr_rm_right _ _ _ _ h h2 (by simp)
    obtain ⟨s, hs⟩ := rmPos_suffix (Tree.node lc lx ll lr) (p ++ [Dir.left])
    have hne : (some p : Ptr) ≠ some (rmPos (Tree.node lc lx ll lr)
        (p ++ [Dir.left])) := by
      rw [hs]
      intro heq
      injection heq with heq
      have := congrArg List.length heq
      simp [List.length_append] at this
    show morrisLoop h (some p) (fuel + 1) = _
    rw [morrisLoop]
    have hstep : morrisStep h (some p) fuel =
        (hwrite h (some (rmPos (Tree.node lc lx ll lr) (p ++ [Dir.left])))
          ({ h (some (rmPos (Tree.node lc lx ll lr) (p ++ [Dir.left]))) with
            right := some p }),
         some (p ++ [Dir.left]), none) := by
      simp only [morrisStep, hleft, hpre, hrmr, if_true,
        reduceCtorEq, if_false]
      rw [hwrite_other _ _ _ hne, hleft]
    rw [hstep]
    simp

theorem call_unlink {l : Tree α} {p : Pos} {par rnext : Ptr}
    {c : Color} {x : α} {h : Heap α}
    (hl : l ≠ Tree.nil)
    (hp : h (some p) = { color := c, elem := some x, parent := par,
                         left := some (p ++ [Dir.left]), right := rnext })
    (hrl : Repr h l (p ++ [Dir.left]) (some p) (some p)) :
    ∀ fuel, size l + 1 ≤ fuel →
      next_node_inorder h (some p) fuel =
        (hwrite h (some (rmPos l (p ++ [Dir.left])))
          ({ h (some (rmPos l (p ++ [Dir.left]))) with right := none }),
         rnext, some p) := by
  intro fuel hfuel
  match fuel, hfuel with
  | fuel + 1, hfuel =>
    have hleft : (h (some p)).left = some (p ++ [Dir.left]) := by
      rw [hp]
    have hpre : findPre h (some p) fuel (some (p ++ [Dir.left])) =
        some (rmPos l (p ++ [Dir.left])) := by
      refine findPre_spec _ _ (some p) (some p) (some p) h hrl hl
        (Or.inr rfl) ?_ fuel (by omega)
      intro r' hrl2 heq
      injection heq with heq
      have hlen2 := congrArg List.length heq
      simp [List.length_append] at hlen2 hrl2
      omega
    have hrmr : (h (some (rmPos l (p ++ [Dir.left])))).right = some p :=
      Repr_rm_right _ _ _ _ h hrl hl
    obtain ⟨s, hs⟩ := rmPos_suffix l (p ++ [Dir.left])
    have hne : (some p : Ptr) ≠ some (rmPos l (p ++ [Dir.left])) := by
      rw [hs]
      intro heq
      injection heq with heq
      have := congrArg List.length heq
      simp [List.length_append] at this
    show morrisLoop h (some p) (fuel + 1) = _
    rw [morrisLoop]
    have hstep : morrisStep h (some p) fuel =
        (hwrite h (some (rmPos l (p ++ [Dir.left])))
          ({ h (some (rmPos l (p ++ [Dir.left]))) with right := none }),
         rnext, some (some p)) := by
      simp only [morrisStep, hleft, hpre, hrmr, if_true,
        reduceCtorEq, if_false]
      rw [hwrite_other _ _ _ hne, hp]
    rw [hstep]

theorem YieldsV.append {s₀ s₁ s₂ : Heap α × Ptr}
    {vs₁ vs₂ : List (Option α)} (h1 : YieldsV s₀ vs₁ s₁)
    (h2 : YieldsV s₁ vs₂ s₂) : YieldsV s₀ (vs₁ ++ vs₂) s₂ := by
  induction h1 with
  | done s => exact h2
  | call hc _ ih => exact YieldsV.call hc (ih h2)

theorem morris_run :
    ∀ (t : Tree α) (p : Pos) (h : Heap α) (par exit : Ptr),
      Repr h t p par exit → t ≠ Tree.nil →
      YieldsV (h, some p) ((inorder t).map some) (h, exit) := by
  intro t
  induction t with
  | nil => intro p h par exit _ hne; exact absurd rfl hne
  | node c x l r ihl ihr =>
    intro p h par exit hr _
    have h1 := hr.1
    have h2 := hr.2.1
    have h3 := hr.2.2
    cases l with
    | nil =>
      -- first call yields this node, then the right subtree runs
      have hcall : CallSpecV (h, some p)
          (h, exitPtr r (p ++ [Dir.right]) exit) (some x) := by
        refine ⟨by simp, 1, fun fuel hfuel => ?_⟩
        have := call_left_nil hr fuel hfuel
        simp only [set_next, this]
        have : (h (some p)).elem = some x := by rw [h1]
        rw [this]
      cases r with
      | nil =>
        simpa [inorder] using YieldsV.call hcall (YieldsV.done _)
      | node rc rx rl rr =>
        have hrest := ihr (p ++ [Dir.right]) h (some p) exit h3 (by simp)
        simpa [inorder] using YieldsV.call hcall hrest
    | node lc lx ll lr =>
      have hlne : (Tree.node lc lx ll lr : Tree α) ≠ Tree.nil := by simp
      obtain ⟨s, hs⟩ :=
        rmPos_suffix (Tree.node lc lx ll lr) (p ++ [Dir.left])
      have hnep : some p ≠
          some (rmPos (Tree.node lc lx ll lr) (p ++ [Dir.left])) := by
        rw [hs]
        intro heq
        injection heq with heq
        have := congrArg List.length heq
        simp [List.length_append] at this
      set h₂ : Heap α :=
        hwrite h (some (rmPos (Tree.node lc lx ll lr) (p ++ [Dir.left])))
          { h (some (rmPos (Tree.node lc lx ll lr) (p ++ [Dir.left]))) with
            right := some p } with hh₂
      have hrepr₂ : Repr h₂ (Tree.node lc lx ll lr) (p ++ [Dir.left])
          (some p) (some p) :=
        Repr_setExit (Tree.node lc lx ll lr) (p ++ [Dir.left]) (some p)
          none (some p) h h2 hlne
      have hp₂ : h₂ (some p) = h (some p) := by
        rw [hh₂]
        exact hwrite_other _ _ _ hnep
      have hrun := ihl (p ++ [Dir.left]) h₂ (some p) (some p) hrepr₂ hlne
      obtain ⟨v₀, vs₀, hvs⟩ : ∃ v₀ vs₀,
          (inorder (Tree.node lc lx ll lr)).map some = v₀ :: vs₀ := by
        cases hiv : (inorder (Tree.node lc lx ll lr)).map some with
        | nil =>
          rw [List.map_eq_nil] at hiv
          simp [inorder] at hiv
        | cons a as => exact ⟨a, as, rfl⟩
      rw [hvs] at hrun
      cases hrun with
      | call hc₀ hrest₀ =>
        rename_i s₁
        obtain ⟨hne₀, N₀, hc₀'⟩ := hc₀
        -- first call of this subtree: install the thread, then behave as
        -- the first call on the left child
        have hcall₁ : CallSpecV (h, some p) s₁ v₀ := by
          refine ⟨by simp, N₀ + size (Tree.node lc lx ll lr) + 2,
            fun fuel hfuel => ?_⟩
          have hinst := call_install hr hlne fuel (by omega)
          rw [← hh₂] at hinst
          have hloopeq : morrisLoop h₂ (some (p ++ [Dir.left])) (fuel - 1) =
              next_node_inorder h₂ (some (p ++ [Dir.left])) (fuel - 1) := by
            simp [next_node_inorder]
          have hcall2 := hc₀' (fuel - 1) (by omega)
          simp only [set_next] at hcall2 ⊢
          rw [hinst, hloopeq]
          exact hcall2
        -- the call that removes the thread and yields this node
        have hrestore :
            hwrite h₂
              (some (rmPos (Tree.node lc lx ll lr) (p ++ [Dir.left])))
              ({ h₂ (some (rmPos (Tree.node lc lx ll lr) (p ++ [Dir.left])))
                with right := none }) = h := by
          rw [hh₂, hwrite_same, hwrite_hwrite]
          have hrmn : (h (some (rmPos (Tree.node lc lx ll lr)
              (p ++ [Dir.left])))).right = none :=
            Repr_rm_right _ _ _ _ h h2 hlne
          have hsame :
              ({ h (some (rmPos (Tree.node lc lx ll lr) (p ++ [Dir.left])))
                 with right := none } : HNode α) =
              h (some (rmPos (Tree.node lc lx ll lr) (p ++ [Dir.left]))) := by
            rw [← hrmn]
          rw [hsame, hwrite_self]
        have hp₂rec : h₂ (some p) =
            { color := c, elem := some x, parent := par,
              left := some (p ++ [Dir.left]),
              right := exitPtr r (p ++ [Dir.right]) exit } := by
          rw [hp₂, h1]
          rfl
        have hunlink : CallSpecV (h₂, some p)
            (h, exitPtr r (p ++ [Dir.right]) exit) (some x) := by
          refine ⟨by simp, size (Tree.node lc lx ll lr) + 1,
            fun fuel hfuel => ?_⟩
          have := call_unlink hlne hp₂rec hrepr₂ fuel hfuel
          rw [hrestore] at this
          simp only [set_next, this]
          have hx : (h (some p)).elem = some x := by rw [h1]
          rw [hx]
        have htail : YieldsV (h, exitPtr r (p ++ [Dir.right]) exit)
            ((inorder r).map some) (h, exit) := by
          cases r with
          | nil => simpa [inorder, exitPtr] using
              YieldsV.done (α := α) (h, exit)
          | node rc rx rl rr =>
            simpa [exitPtr] using
              ihr (p ++ [Dir.right]) h (some p) exit h3 (by simp)
        have hmid := YieldsV.call hunlink htail
        have hall := YieldsV.call hcall₁ (hrest₀.append hmid)
        have hlist : (inorder (Tree.node c x (Tree.node lc lx ll lr) r)).map
            some = v₀ :: (vs₀ ++ some x :: (inorder r).map some) := by
          show ((inorder (Tree.node lc lx ll lr) ++ x :: inorder r).map some)
            = _
          rw [List.map_append]
          rw [hvs]
          simp
        rw [hlist]
        exact hall

theorem yieldsV_repeatNext {s₀ s₂ : Heap α × Ptr} {vs : List (Option α)}
    (h : YieldsV s₀ vs s₂) :
    ∃ N, ∀ fuel, N ≤ fuel →
      repeatNext s₀.1 ⟨s₀.2⟩ fuel vs.length = (s₂.1, ⟨s₂.2⟩, vs) ∧
      ∀ k, k < vs.length →
        (repeatNext s₀.1 ⟨s₀.2⟩ fuel k).2.1.node ≠ none := by
  induction h with
  | done s =>
    refine ⟨0, fun fuel _ => ⟨rfl, fun k hk => ?_⟩⟩
    simp at hk
  | call hc hrest ih =>
    obtain ⟨hne, N₀, hcall⟩ := hc
    obtain ⟨N₁, hrest'⟩ := ih
    refine ⟨max N₀ N₁, fun fuel hfuel => ?_⟩
    have h1 := hcall fuel (le_trans (le_max_left _ _) hfuel)
    obtain ⟨h2, h3⟩ := hrest' fuel (le_trans (le_max_right _ _) hfuel)
    constructor
    · simp only [List.length_cons, repeatNext, h1, h2]
    · intro k hk
      cases k with
      | zero => simpa using hne
      | succ k =>
        have hk' := Nat.lt_of_succ_lt_succ (by simpa using hk)
        have := h3 k hk'
        simpa only [repeatNext, h1] using this

theorem yieldsV_take {s₀ s₂ : Heap α × Ptr} {vs : List (Option α)}
    (h : YieldsV s₀ vs s₂) :
    ∀ k, k ≤ vs.length → ∃ sk : Heap α × Ptr,
      YieldsV s₀ (vs.take k) sk ∧ YieldsV sk (vs.drop k) s₂ := by
  induction h with
  | done s =>
    intro k hk
    simp only [List.length_nil, Nat.le_zero] at hk
    subst hk
    exact ⟨s, YieldsV.done s, YieldsV.done s⟩
  | call hc hrest ih =>
    intro k hk
    cases k with
    | zero => exact ⟨_, YieldsV.done _, YieldsV.call hc hrest⟩
    | succ k =>
      obtain ⟨sk, h1, h2⟩ := ih k (by simpa using hk)
      exact ⟨sk, YieldsV.call hc h1, h2⟩

theorem yieldsV_drain {sa sb : Heap α × Ptr} {ws : List (Option α)}
    (h : YieldsV sa ws sb) (hend : sb.2 = none) :
    ∃ N, ∀ stepFuel, N ≤ stepFuel → ∀ fuel, ws.length + 1 ≤ fuel →
      drainLoop sa.1 ⟨sa.2⟩ fuel stepFuel = (sb.1, ⟨sb.2⟩) := by
  induction h with
  | done s =>
    refine ⟨0, fun stepFuel _ fuel hfuel => ?_⟩
    match fuel, hfuel with
    | fuel + 1, _ =>
      rw [drainLoop]
      rw [if_pos (by simp [set_hasnext, hend])]
  | call hc hrest ih =>
    rename_i s₀ s₁ s₂ v vs
    obtain ⟨hne, N₀, hcall⟩ := hc
    obtain ⟨N₁, hih⟩ := ih hend
    refine ⟨max N₀ N₁, fun stepFuel hstep fuel hfuel => ?_⟩
    match fuel, hfuel with
    | fuel + 1, hfuel =>
      rw [drainLoop]
      rw [if_neg (by simp [set_hasnext, hne])]
      have h1 := hcall stepFuel (le_trans (le_max_left _ _) hstep)
      simp only [set_next] at h1
      have hfst : (next_node_inorder s₀.1 s₀.2 stepFuel).1 = s₁.1 :=
        congrArg (fun z => z.1) h1
      have hsnd : (next_node_inorder s₀.1 s₀.2 stepFuel).2.1 = s₁.2 :=
        congrArg (fun z => z.2.1.node) h1
      show drainLoop (next_node_inorder s₀.1 s₀.2 stepFuel).1
        (⟨(next_node_inorder s₀.1 s₀.2 stepFuel).2.1⟩ : SetIter) fuel
          stepFuel = (s₂.1, ⟨s₂.2⟩)
      rw [hfst, hsnd]
      exact hih stepFuel (le_trans (le_max_right _ _) hstep) fuel
        (by simpa using hfuel)

/- --------Sentinel preservation lemmas (for claim C8)-------- -/

theorem morrisStep_preserves_nil (h : Heap α) (c : Ptr) (fuel : Nat) :
    (morrisStep h c fuel).1 none = h none := by
  rw [morrisStep]
  by_cases hleft : (h c).left = none
  · rw [if_pos hleft]
  · rw [if_neg hleft]
    have hpre : findPre h c fuel ((h c).left) ≠ none :=
      findPre_ne_none h c fuel _ hleft
    by_cases hn : (h (findPre h c fuel ((h c).left))).right = none
    · rw [if_pos hn]
      exact hwrite_other _ _ _ (by simpa using Ne.symm hpre)
    · rw [if_neg hn]
      exact hwrite_other _ _ _ (by simpa using Ne.symm hpre)

theorem morrisLoop_preserves_nil (h : Heap α) (c : Ptr) :
    ∀ fuel, (morrisLoop h c fuel).1 none = h none := by
  intro fuel
  induction fuel generalizing h c with
  | zero => rfl
  | succ fuel ih =>
    rw [morrisLoop]
    have hstep := morrisStep_preserves_nil h c fuel
    cases hres : morrisStep h c fuel with
    | mk h' rest =>
      cases rest with
      | mk c' y =>
        rw [hres] at hstep
        have hstep' : h' none = h none := hstep
        cases y with
        | none => exact (ih h' c').trans hstep'
        | some ret => exact hstep'

theorem next_node_inorder_preserves_nil (h : Heap α) (node : Ptr)
    (fuel : Nat) : (next_node_inorder h node fuel).1 none = h none := by
  rw [next_node_inorder]
  by_cases hn : node = none
  · rw [if_pos hn]
  · rw [if_neg hn]
    exact morrisLoop_preserves_nil h node fuel

theorem set_next_preserves_nil (h : Heap α) (it : SetIter) (fuel : Nat) :
    (set_next h it fuel).1 none = h none :=
  next_node_inorder_preserves_nil h it.node fuel

theorem repeatNext_preserves_nil (h : Heap α) (it : SetIter) (fuel : Nat) :
    ∀ k, (repeatNext h it fuel k).1 none = h none := by
  intro k
  induction k generalizing h it with
  | zero => rfl
  | succ k ih =>
    rw [repeatNext]
    rw [ih]
    exact set_next_preserves_nil h it fuel

theorem drainLoop_preserves_nil (h : Heap α) (it : SetIter)
    (stepFuel : Nat) : ∀ fuel,
      (drainLoop h it fuel stepFuel).1 none = h none := by
  intro fuel
  induction fuel generalizing h it with
  | zero => rfl
  | succ fuel ih =>
    rw [drainLoop]
    by_cases hn : set_hasnext it = 0
    · rw [if_pos hn]
    · rw [if_neg hn]
      rw [ih]
      exact next_node_inorder_preserves_nil h it.node stepFuel

theorem set_destroyiter_preserves_nil (h : Heap α) (s : SetS α)
    (it : SetIter) (fuel stepFuel : Nat) :
    (set_destroyiter h s it fuel stepFuel).1 none = h none :=
  drainLoop_preserves_nil h it stepFuel fuel

theorem hwrite_nil_skip (h' : Heap α) (k : Ptr) (v : HNode α)
    (hk : k ≠ none) : hwrite h' k v none = h' none :=
  hwrite_other _ _ _ (Ne.symm hk)


theorem rotate_left_preserves_nil (h : Heap α) (root u : Ptr)
    (hu : u ≠ none) (hv : (h u).right ≠ none) :
    (rotate_left h root u).1 none = h none := by
  simp only [rotate_left]
  split
  next hl =>
    split
    next hup =>
      simp only [hwrite_nil_skip _ _ _ hu, hwrite_nil_skip _ _ _ hv,
        hwrite_nil_skip _ _ _ hl]
    next hup =>
      split
      next heq =>
        simp only [hwrite_nil_skip _ _ _ hu, hwrite_nil_skip _ _ _ hv,
          hwrite_nil_skip _ _ _ hl, hwrite_nil_skip _ _ _ hup]
      next heq =>
        simp only [hwrite_nil_skip _ _ _ hu, hwrite_nil_skip _ _ _ hv,
          hwrite_nil_skip _ _ _ hl, hwrite_nil_skip _ _ _ hup]
  next hl =>
    split
    next hup =>
      simp only [hwrite_nil_skip _ _ _ hu, hwrite_nil_skip _ _ _ hv]
    next hup =>
      split
      next heq =>
        simp only [hwrite_nil_skip _ _ _ hu, hwrite_nil_skip _ _ _ hv,
          hwrite_nil_skip _ _ _ hup]
      next heq =>
        simp only [hwrite_nil_skip _ _ _ hu, hwrite_nil_skip _ _ _ hv,
          hwrite_nil_skip _ _ _ hup]

theorem rotate_right_preserves_nil (h : Heap α) (root u : Ptr)
    (hu : u ≠ none) (hv : (h u).left ≠ none) :
    (rotate_right h root u).1 none = h none := by
  simp only [rotate_right]
  split
  next hl =>
    split
    next hup =>
      simp only [hwrite_nil_skip _ _ _ hu, hwrite_nil_skip _ _ _ hv,
        hwrite_nil_skip _ _ _ hl]
    next hup =>
      split
      next heq =>
        simp only [hwrite_nil_skip _ _ _ hu, hwrite_nil_skip _ _ _ hv,
          hwrite_nil_skip _ _ _ hl, hwrite_nil_skip _ _ _ hup]
      next heq =>
        simp only [hwrite_nil_skip _ _ _ hu, hwrite_nil_skip _ _ _ hv,
          hwrite_nil_skip _ _ _ hl, hwrite_nil_skip _ _ _ hup]
  next hl =>
    split
    next hup =>
      simp only [hwrite_nil_skip _ _ _ hu, hwrite_nil_skip _ _ _ hv]
    next hup =>
      split
      next heq =>
        simp only [hwrite_nil_skip _ _ _ hu, hwrite_nil_skip _ _ _ hv,
          hwrite_nil_skip _ _ _ hup]
      next heq =>
        simp only [hwrite_nil_skip _ _ _ hu, hwrite_nil_skip _ _ _ hv,
          hwrite_nil_skip _ _ _ hup]

/- =====================  Claim C8  ===================== -/

/-- C8: the sentinel cell (the NIL pointer's target) is never written: it
stays exactly in its static initial state - black, with null elem and null
links - across the operations that manipulate pointers around it.  The
iterator machinery (next_node_inorder and the public set_next,
set_destroyiter and repeated-iteration drivers) preserves it
unconditionally; the rotation primitives preserve it under their
documented contract (the rotated node and its promoted child are
non-sentinel); and every freshly laid-out tree heap has the sentinel in
exactly that state.  The remaining public operations (create, insert, get,
union, intersection, difference) are modelled on inductive trees where no
sentinel object exists to mutate: insertion rewires through the rotation
primitives above and search only reads. -/
theorem sentinel_preserved (α : Type) :
    (∀ (h : Heap α) (node : Ptr) (fuel : Nat),
      (next_node_inorder h node fuel).1 none = h none) ∧
    (∀ (h : Heap α) (it : SetIter) (fuel : Nat),
      (set_next h it fuel).1 none = h none) ∧
    (∀ (h : Heap α) (it : SetIter) (fuel k : Nat),
      (repeatNext h it fuel k).1 none = h none) ∧
    (∀ (h : Heap α) (s : SetS α) (it : SetIter) (fuel stepFuel : Nat),
      (set_destroyiter h s it fuel stepFuel).1 none = h none) ∧
    (∀ (h : Heap α) (root u : Ptr), u ≠ none → (h u).right ≠ none →
      (rotate_left h root u).1 none = h none) ∧
    (∀ (h : Heap α) (root u : Ptr), u ≠ none → (h u).left ≠ none →
      (rotate_right h root u).1 none = h none) ∧
    (∀ t : Tree α, mkHeap t none = sentinelNode α) :=
  ⟨next_node_inorder_preserves_nil,
    set_next_preserves_nil,
    repeatNext_preserves_nil,
    set_destroyiter_preserves_nil,
    rotate_left_preserves_nil,
    rotate_right_preserves_nil,
    fun _ => rfl⟩

/-- Witness for C8: a concrete rotation (of the root of a two-node heap,
with a real right child) and a concrete iterator call both leave the
sentinel cell untouched. -/
theorem sentinel_preserved_witness :
    ((some [] : Ptr) ≠ none ∧
      ((mkHeap (Tree.node black (1 : Int) Tree.nil
          (Tree.node red 2 Tree.nil Tree.nil))) (some [])).right ≠ none ∧
      (rotate_left (mkHeap (Tree.node black (1 : Int) Tree.nil
          (Tree.node red 2 Tree.nil Tree.nil))) (some []) (some [])).1 none =
        (mkHeap (Tree.node black (1 : Int) Tree.nil
          (Tree.node red 2 Tree.nil Tree.nil))) none) ∧
    (next_node_inorder (mkHeap (Tree.node black (1 : Int) Tree.nil Tree.nil))
        (some []) 9).1 none =
      (mkHeap (Tree.node black (1 : Int) Tree.nil Tree.nil)) none :=
  ⟨⟨by decide, by decide,
    (sentinel_preserved Int).2.2.2.2.1 _ (some []) (some [])
      (by decide) (by decide)⟩,
    (sentinel_preserved Int).1 _ (some []) 9⟩

/- --------Iteration-correctness assembly (claim C2)-------- -/

theorem insert_fold_perm {cmp : α → α → Int} (hc : TotalCmp cmp) :
    ∀ (xs : List α) (s : SetS α) (acc : List α), SetInv cmp s →
      (inorder s.root).Perm acc →
      (inorder (xs.foldl (fun s x => (set_insert cmp s x).1) s).root).Perm
        (xs.foldl (fun acc x =>
          if acc.any (fun y => cmp x y = 0) then acc else acc ++ [x]) acc) := by
  intro xs
  induction xs with
  | nil => intro s acc _ hperm; simpa using hperm
  | cons x xs ih =>
    intro s acc hinv hperm
    by_cases hex : acc.any (fun y => cmp x y = 0) = true
    · have hmem : ∃ y ∈ inorder s.root, cmp x y = 0 := by
        rcases List.any_eq_true.mp hex with ⟨y, hy, hcy⟩
        exact ⟨y, hperm.mem_iff.mpr hy, by simpa using hcy⟩
      obtain ⟨y, _, _, heq⟩ := (set_insert_spec hc hinv.1 x).1 hmem
      simp only [List.foldl_cons]
      rw [if_pos hex]
      simp only [heq]
      exact ih s acc hinv hperm
    · have hno : ∀ y ∈ inorder s.root, cmp x y ≠ 0 := by
        intro y hy hcy
        exact hex (List.any_eq_true.mpr
          ⟨y, hperm.mem_iff.mp hy, by simpa using hcy⟩)
      obtain ⟨_, _, _, A, B, hsplit, _, _, hnew⟩ :=
        (set_insert_spec hc hinv.1 x).2 hno
      simp only [List.foldl_cons]
      rw [if_neg hex]
      apply ih _ _ (set_insert_preserves_inv hc hinv x)
      rw [hnew]
      have hab : (A ++ B).Perm acc := by rw [← hsplit]; exact hperm
      exact List.perm_middle.trans ((hab.cons x).trans
        (List.perm_append_singleton x acc).symm)

theorem set_insert_all_perm {cmp : α → α → Int} (hc : TotalCmp cmp)
    (xs : List α) :
    (inorder (set_insert_all cmp xs).root).Perm (dedupCmp cmp xs) :=
  insert_fold_perm hc xs set_create [] ⟨trivial, rfl⟩ (by simp [set_create, inorder])

theorem iterate_full (s : SetS α) :
    ∃ N, ∀ fuel, N ≤ fuel →
      repeatNext (mkHeap s.root) ⟨childPtr s.root []⟩ fuel
          (inorder s.root).length
        = (mkHeap s.root, ⟨none⟩, (inorder s.root).map some) ∧
      ∀ k, k < (inorder s.root).length →
        set_hasnext (repeatNext (mkHeap s.root) ⟨childPtr s.root []⟩
          fuel k).2.1 = 1 := by
  cases hroot : s.root with
  | nil =>
    refine ⟨0, fun fuel _ => ⟨rfl, fun k hk => by simp [inorder] at hk⟩⟩
  | node c x l r =>
    have hrepr := mkHeap_repr (Tree.node c x l r)
    have hrun := morris_run (Tree.node c x l r) []
      (mkHeap (Tree.node c x l r)) none none hrepr (by simp)
    obtain ⟨N, hN⟩ := yieldsV_repeatNext hrun
    refine ⟨N, fun fuel hfuel => ?_⟩
    obtain ⟨h1, h2⟩ := hN fuel hfuel
    refine ⟨by simpa only [childPtr, List.length_map] using h1, ?_⟩
    intro k hk
    have hne := h2 k (by simpa using hk)
    simp only [set_hasnext, childPtr]
    rw [if_neg hne]

/- =====================  Claim C2  ===================== -/

/-- C2: for a set built by any sequence of set_insert calls under a
total-order comparator, a fresh iterator (set_createiter, then repeated
set_next until set_hasnext reads 0) yields exactly the distinct inserted
elements - the in-order list of the tree - in strictly ascending comparator
order, their number equal to set_length; before the last yield set_hasnext
reads 1, after it 0, and the heap is back in its initial laid-out state. -/
theorem set_iteration_spec {α : Type} (cmp : α → α → Int)
    (hc : TotalCmp cmp) (xs : List α) :
    ∃ elems : List α,
      SortedCmp cmp elems ∧
      elems.Perm (dedupCmp cmp xs) ∧
      elems.length = set_length (set_insert_all cmp xs) ∧
      ∃ N, ∀ fuel, N ≤ fuel →
        repeatNext (mkHeap (set_insert_all cmp xs).root)
            (set_createiter (set_insert_all cmp xs)).2 fuel
            (set_length (set_insert_all cmp xs))
          = (mkHeap (set_insert_all cmp xs).root, ⟨none⟩, elems.map some) ∧
        set_hasnext (repeatNext (mkHeap (set_insert_all cmp xs).root)
            (set_createiter (set_insert_all cmp xs)).2 fuel
            (set_length (set_insert_all cmp xs))).2.1 = 0 ∧
        ∀ k, k < set_length (set_insert_all cmp xs) →
          set_hasnext (repeatNext (mkHeap (set_insert_all cmp xs).root)
              (set_createiter (set_insert_all cmp xs)).2 fuel k).2.1 = 1 := by
  obtain ⟨hord, hlen⟩ := set_insert_all_inv hc xs
  refine ⟨inorder (set_insert_all cmp xs).root,
    (ordered_iff_pairwise hc _).mp hord,
    set_insert_all_perm hc xs, hlen.symm, ?_⟩
  obtain ⟨N, hN⟩ := iterate_full (set_insert_all cmp xs)
  refine ⟨N, fun fuel hfuel => ?_⟩
  obtain ⟨h1, h2⟩ := hN fuel hfuel
  have hsl : set_length (set_insert_all cmp xs)
      = (inorder (set_insert_all cmp xs).root).length := hlen
  simp only [set_createiter, hsl]
  refine ⟨h1, ?_, h2⟩
  rw [h1]
  rfl

/-- Witness for C2: the integer comparator is a total order, applied to a
concrete insertion sequence with one duplicate. -/
theorem set_iteration_spec_witness :
    TotalCmp compare_integers ∧
    ∃ elems : List Int,
      SortedCmp compare_integers elems ∧
      elems.Perm (dedupCmp compare_integers [2, 1, 2, 3]) ∧
      elems.length
        = set_length (set_insert_all compare_integers [2, 1, 2, 3]) ∧
      ∃ N, ∀ fuel, N ≤ fuel →
        repeatNext (mkHeap (set_insert_all compare_integers [2, 1, 2, 3]).root)
            (set_createiter (set_insert_all compare_integers [2, 1, 2, 3])).2
            fuel (set_length (set_insert_all compare_integers [2, 1, 2, 3]))
          = (mkHeap (set_insert_all compare_integers [2, 1, 2, 3]).root,
              ⟨none⟩, elems.map some) ∧
        set_hasnext
            (repeatNext
              (mkHeap (set_insert_all compare_integers [2, 1, 2, 3]).root)
              (set_createiter (set_insert_all compare_integers [2, 1, 2, 3])).2
              fuel
              (set_length
                (set_insert_all compare_integers [2, 1, 2, 3]))).2.1 = 0 ∧
        ∀ k, k < set_length (set_insert_all compare_integers [2, 1, 2, 3]) →
          set_hasnext
              (repeatNext
                (mkHeap (set_insert_all compare_integers [2, 1, 2, 3]).root)
                (set_createiter
                  (set_insert_all compare_integers [2, 1, 2, 3])).2
                fuel k).2.1 = 1 :=
  ⟨compare_integers_total,
    set_iteration_spec compare_integers compare_integers_total [2, 1, 2, 3]⟩

/- --------Mid-iteration destroy (claim C7)-------- -/

theorem drain_from_k (s : SetS α) (k : Nat)
    (hk : k ≤ (inorder s.root).length) :
    ∃ N, ∀ fuel, N ≤ fuel → ∀ dfuel, (inorder s.root).length + 1 ≤ dfuel →
      drainLoop (repeatNext (mkHeap s.root) ⟨childPtr s.root []⟩ fuel k).1
        (repeatNext (mkHeap s.root) ⟨childPtr s.root []⟩ fuel k).2.1
        dfuel fuel = (mkHeap s.root, (⟨none⟩ : SetIter)) := by
  cases hroot : s.root with
  | nil =>
    rw [hroot] at hk
    simp only [inorder, List.length_nil, Nat.le_zero] at hk
    subst hk
    refine ⟨0, fun fuel _ dfuel hd => ?_⟩
    match dfuel, hd with
    | dfuel + 1, _ => rfl
  | node c x l r =>
    rw [hroot] at hk
    have hrepr := mkHeap_repr (Tree.node c x l r)
    have hrun := morris_run (Tree.node c x l r) []
      (mkHeap (Tree.node c x l r)) none none hrepr (by simp)
    have hk' : k ≤ ((inorder (Tree.node c x l r)).map some).length := by
      simpa using hk
    obtain ⟨sk, h1, h2⟩ := yieldsV_take hrun k hk'
    obtain ⟨N₁, hN₁⟩ := yieldsV_repeatNext h1
    obtain ⟨N₂, hN₂⟩ := yieldsV_drain h2 rfl
    refine ⟨max N₁ N₂, fun fuel hfuel dfuel hd => ?_⟩
    have htk : (((inorder (Tree.node c x l r)).map some).take k).length
        = k := by
      rw [List.length_take]
      exact Nat.min_eq_left hk'
    obtain ⟨e1, _⟩ := hN₁ fuel (le_trans (le_max_left _ _) hfuel)
    rw [htk] at e1
    simp only [childPtr]
    rw [e1]
    have hd' : (((inorder (Tree.node c x l r)).map some).drop k).length + 1
        ≤ dfuel := by
      rw [List.length_drop]
      simp only [List.length_map] at hk' ⊢
      omega
    exact hN₂ fuel (le_trans (le_max_right _ _) hfuel) dfuel hd'

/- =====================  Claim C7  ===================== -/

/-- C7: an iterator advanced k times (0 ≤ k ≤ set_length) and then handed
to set_destroyiter drains the remaining traversal and leaves the heap in
exactly its pre-iteration laid-out state - no residual Morris threads -
with the set's advisory counter back at its original value; a fresh
iterator afterwards again yields the full strictly ascending in-order
sequence. -/
theorem set_destroyiter_restores {α : Type} (cmp : α → α → Int)
    (hc : TotalCmp cmp) (s : SetS α) (hinv : SetInv cmp s)
    (k : Nat) (hk : k ≤ set_length s) :
    SortedCmp cmp (inorder s.root) ∧
    ∃ N, ∀ fuel, N ≤ fuel →
      set_destroyiter
          (repeatNext (mkHeap s.root) (set_createiter s).2 fuel k).1
          (set_createiter s).1
          (repeatNext (mkHeap s.root) (set_createiter s).2 fuel k).2.1
          (set_length s + 1) fuel
        = (mkHeap s.root, s) ∧
      repeatNext (mkHeap s.root) (set_createiter s).2 fuel (set_length s)
        = (mkHeap s.root, ⟨none⟩, (inorder s.root).map some) := by
  obtain ⟨hord, hlen⟩ := hinv
  have hsl : set_length s = (inorder s.root).length := hlen
  refine ⟨(ordered_iff_pairwise hc _).mp hord, ?_⟩
  obtain ⟨N₁, hN₁⟩ := drain_from_k s k (hsl ▸ hk)
  obtain ⟨N₂, hN₂⟩ := iterate_full s
  refine ⟨max N₁ N₂, fun fuel hfuel => ?_⟩
  constructor
  · have hdrain := hN₁ fuel (le_trans (le_max_left _ _) hfuel)
      (set_length s + 1) (by omega)
    have h1 : (set_destroyiter
        (repeatNext (mkHeap s.root) (set_createiter s).2 fuel k).1
        (set_createiter s).1
        (repeatNext (mkHeap s.root) (set_createiter s).2 fuel k).2.1
        (set_length s + 1) fuel).1 = mkHeap s.root := by
      simp only [set_createiter, set_destroyiter]
      rw [hdrain]
    have h2 : (set_destroyiter
        (repeatNext (mkHeap s.root) (set_createiter s).2 fuel k).1
        (set_createiter s).1
        (repeatNext (mkHeap s.root) (set_createiter s).2 fuel k).2.1
        (set_length s + 1) fuel).2 = s := by
      simp only [set_createiter, set_destroyiter]
      cases s
      simp
    exact Prod.ext_iff.mpr ⟨h1, h2⟩
  · have := (hN₂ fuel (le_trans (le_max_right _ _) hfuel)).1
    simp only [set_createiter, hsl]
    exact this

/-- Witness for C7: destroy after one yield on a three-element integer
set. -/
theorem set_destroyiter_restores_witness :
    TotalCmp compare_integers ∧
    SetInv compare_integers (set_insert_all compare_integers [2, 1, 3]) ∧
    1 ≤ set_length (set_insert_all compare_integers [2, 1, 3]) ∧
    (SortedCmp compare_integers
        (inorder (set_insert_all compare_integers [2, 1, 3]).root) ∧
      ∃ N, ∀ fuel, N ≤ fuel →
        set_destroyiter
            (repeatNext
              (mkHeap (set_insert_all compare_integers [2, 1, 3]).root)
              (set_createiter (set_insert_all compare_integers [2, 1, 3])).2
              fuel 1).1
            (set_createiter (set_insert_all compare_integers [2, 1, 3])).1
            (repeatNext
              (mkHeap (set_insert_all compare_integers [2, 1, 3]).root)
              (set_createiter (set_insert_all compare_integers [2, 1, 3])).2
              fuel 1).2.1
            (set_length (set_insert_all compare_integers [2, 1, 3]) + 1) fuel
          = (mkHeap (set_insert_all compare_integers [2, 1, 3]).root,
              set_insert_all compare_integers [2, 1, 3]) ∧
        repeatNext (mkHeap (set_insert_all compare_integers [2, 1, 3]).root)
            (set_createiter (set_insert_all compare_integers [2, 1, 3])).2
            fuel (set_length (set_insert_all compare_integers [2, 1, 3]))
          = (mkHeap (set_insert_all compare_integers [2, 1, 3]).root,
              ⟨none⟩,
              (inorder (set_insert_all compare_integers [2, 1, 3]).root).map
                some)) :=
  ⟨compare_integers_total,
    set_insert_all_inv compare_integers_total [2, 1, 3],
    by decide,
    set_destroyiter_restores compare_integers compare_integers_total
      (set_insert_all compare_integers [2, 1, 3])
      (set_insert_all_inv compare_integers_total [2, 1, 3])
      1 (by decide)⟩

/- --------Key counting (claim C5)-------- -/

theorem keyMem_congr {α : Type} {cmp : α → α → Int} (hc : TotalCmp cmp) {z x : α}
    (hzx : cmp z x = 0) (l : List α) :
    KeyMem cmp z l ↔ KeyMem cmp x l := by
  constructor
  · rintro ⟨w, hw, hzw⟩
    exact ⟨w, hw, hc.eq_trans ((hc.zero_swap z x).mp hzx) hzw⟩
  · rintro ⟨w, hw, hxw⟩
    exact ⟨w, hw, hc.eq_trans hzx hxw⟩

theorem keyMem_cons {α : Type} {cmp : α → α → Int} (z x : α) (t : List α) :
    KeyMem cmp z (x :: t) ↔ cmp z x = 0 ∨ KeyMem cmp z t := by
  constructor
  · rintro ⟨w, hw, hzw⟩
    rcases List.mem_cons.mp hw with rfl | hwt
    · exact Or.inl hzw
    · exact Or.inr ⟨w, hwt, hzw⟩
  · rintro (h | ⟨w, hw, hzw⟩)
    · exact ⟨x, List.mem_cons_self x t, h⟩
    · exact ⟨w, List.mem_cons_of_mem x hw, hzw⟩

theorem keyMem_append {α : Type} {cmp : α → α → Int} (z : α) (u v : List α) :
    KeyMem cmp z (u ++ v) ↔ KeyMem cmp z u ∨ KeyMem cmp z v := by
  constructor
  · rintro ⟨w, hw, hzw⟩
    rcases List.mem_append.mp hw with hwu | hwv
    · exact Or.inl ⟨w, hwu, hzw⟩
    · exact Or.inr ⟨w, hwv, hzw⟩
  · rintro (⟨w, hw, hzw⟩ | ⟨w, hw, hzw⟩)
    · exact ⟨w, List.mem_append.mpr (Or.inl hw), hzw⟩
    · exact ⟨w, List.mem_append.mpr (Or.inr hw), hzw⟩

theorem keyFree_head_notMem {α : Type} {cmp : α → α → Int} (hc : TotalCmp cmp)
    {x z : α} {t : List α} (hf : KeyFree cmp (x :: t)) (hzx : cmp z x = 0) :
    ¬ KeyMem cmp z t := by
  rintro ⟨w, hw, hzw⟩
  exact (List.pairwise_cons.mp hf).1 w hw
    (hc.eq_trans ((hc.zero_swap z x).mp hzx) hzw)

theorem key_erase {α : Type} {cmp : α → α → Int} (hc : TotalCmp cmp) {l : List α}
    {x : α} (hf : KeyFree cmp l) (hm : KeyMem cmp x l) :
    ∃ l', l'.length + 1 = l.length ∧ KeyFree cmp l' ∧
      (∀ z, cmp z x = 0 → ¬ KeyMem cmp z l') ∧
      (∀ z, cmp z x ≠ 0 → (KeyMem cmp z l' ↔ KeyMem cmp z l)) := by
  obtain ⟨y, hy, hxy⟩ := hm
  obtain ⟨p, q, rfl⟩ := List.append_of_mem hy
  have hfacts := List.pairwise_append.mp hf
  refine ⟨p ++ q,
    by simp only [List.length_append, List.length_cons]; omega, ?_, ?_, ?_⟩
  · exact List.Pairwise.sublist
      (List.Sublist.append (List.Sublist.refl p) (List.sublist_cons_self y q))
      hf
  · rintro z hzx ⟨w, hw, hzw⟩
    have hyw : cmp y w = 0 :=
      hc.eq_trans (hc.eq_trans ((hc.zero_swap x y).mp hxy)
        ((hc.zero_swap z x).mp hzx)) hzw
    rcases List.mem_append.mp hw with hwp | hwq
    · exact absurd ((hc.zero_swap y w).mp hyw)
        (hfacts.2.2 w hwp y (List.mem_cons_self y q))
    · exact absurd hyw ((List.pairwise_cons.mp hfacts.2.1).1 w hwq)
  · intro z hzx
    constructor
    · rintro ⟨w, hw, hzw⟩
      rcases List.mem_append.mp hw with hwp | hwq
      · exact ⟨w, List.mem_append.mpr (Or.inl hwp), hzw⟩
      · exact ⟨w, List.mem_append.mpr
          (Or.inr (List.mem_cons_of_mem y hwq)), hzw⟩
    · rintro ⟨w, hw, hzw⟩
      rcases List.mem_append.mp hw with hwp | hwyq
      · exact ⟨w, List.mem_append.mpr (Or.inl hwp), hzw⟩
      · rcases List.mem_cons.mp hwyq with rfl | hwq
        · exact absurd (hc.eq_trans hzw ((hc.zero_swap x w).mp hxy)) hzx
        · exact ⟨w, List.mem_append.mpr (Or.inr hwq), hzw⟩

theorem keyMem_length_eq {α : Type} {cmp : α → α → Int} (hc : TotalCmp cmp) :
    ∀ (l₁ l₂ : List α), KeyFree cmp l₁ → KeyFree cmp l₂ →
      (∀ z, KeyMem cmp z l₁ ↔ KeyMem cmp z l₂) → l₁.length = l₂.length := by
  intro l₁
  induction l₁ with
  | nil =>
    intro l₂ _ _ hmem
    cases l₂ with
    | nil => rfl
    | cons y t =>
      obtain ⟨w, hw, _⟩ :=
        (hmem y).mpr ⟨y, List.mem_cons_self y t, hc.refl y⟩
      simp at hw
  | cons x t ih =>
    intro l₂ hf₁ hf₂ hmem
    have hx2 : KeyMem cmp x l₂ :=
      (hmem x).mp ⟨x, List.mem_cons_self x t, hc.refl x⟩
    obtain ⟨l₂', hlen, hf₂', hno, hiff⟩ := key_erase hc hf₂ hx2
    have ht : t.length = l₂'.length := by
      refine ih l₂' (List.pairwise_cons.mp hf₁).2 hf₂' ?_
      intro z
      constructor
      · rintro hz
        have hzx : cmp z x ≠ 0 := fun h0 =>
          keyFree_head_notMem hc hf₁ h0 hz
        obtain ⟨w, hw, hzw⟩ := hz
        exact (hiff z hzx).mpr
          ((hmem z).mp ⟨w, List.mem_cons_of_mem x hw, hzw⟩)
      · intro hz
        have hzx : cmp z x ≠ 0 := fun h0 => hno z h0 hz
        obtain ⟨w, hw, hzw⟩ := (hmem z).mpr ((hiff z hzx).mp hz)
        rcases List.mem_cons.mp hw with rfl | hwt
        · exact absurd hzw hzx
        · exact ⟨w, hwt, hzw⟩
    simp only [List.length_cons]
    omega

theorem key_count {α : Type} {cmp : α → α → Int} (hc : TotalCmp cmp) :
    ∀ (La Lb LU LI : List α), KeyFree cmp La → KeyFree cmp Lb →
      KeyFree cmp LU → KeyFree cmp LI →
      (∀ z, KeyMem cmp z LU ↔ KeyMem cmp z La ∨ KeyMem cmp z Lb) →
      (∀ z, KeyMem cmp z LI ↔ KeyMem cmp z La ∧ KeyMem cmp z Lb) →
      LU.length + LI.length = La.length + Lb.length := by
  intro La
  induction La with
  | nil =>
    intro Lb LU LI _ hfb hfU hfI hU hI
    have hIlen : LI.length = 0 := by
      cases LI with
      | nil => rfl
      | cons y t =>
        obtain ⟨⟨w, hw, _⟩, _⟩ :=
          (hI y).mp ⟨y, List.mem_cons_self y t, hc.refl y⟩
        simp at hw
    have hUlen : LU.length = Lb.length := by
      refine keyMem_length_eq hc LU Lb hfU hfb fun z => ?_
      rw [hU z]
      constructor
      · rintro (⟨w, hw, _⟩ | h)
        · simp at hw
        · exact h
      · exact Or.inr
    simp [hIlen, hUlen]
  | cons x t ih =>
    intro Lb LU LI hfa hfb hfU hfI hU hI
    have hxU : KeyMem cmp x LU :=
      (hU x).mpr (Or.inl ⟨x, List.mem_cons_self x t, hc.refl x⟩)
    obtain ⟨LU', hlenU, hfU', hnoU, hiffU⟩ := key_erase hc hfU hxU
    have hft : KeyFree cmp t := (List.pairwise_cons.mp hfa).2
    by_cases hxb : KeyMem cmp x Lb
    · have hxI : KeyMem cmp x LI :=
        (hI x).mpr ⟨⟨x, List.mem_cons_self x t, hc.refl x⟩, hxb⟩
      obtain ⟨LI', hlenI, hfI', hnoI, hiffI⟩ := key_erase hc hfI hxI
      obtain ⟨Lb', hlenB, hfB', hnoB, hiffB⟩ := key_erase hc hfb hxb
      have hmemU : ∀ z, KeyMem cmp z LU' ↔
          KeyMem cmp z t ∨ KeyMem cmp z Lb' := by
        intro z
        by_cases hzx : cmp z x = 0
        · constructor
          · intro hz
            exact absurd hz (hnoU z hzx)
          · rintro (hz | hz)
            · exact absurd hz (keyFree_head_notMem hc hfa hzx)
            · exact absurd hz (hnoB z hzx)
        · rw [hiffU z hzx, hU z, keyMem_cons, ← hiffB z hzx]
          simp [hzx]
      have hmemI : ∀ z, KeyMem cmp z LI' ↔
          KeyMem cmp z t ∧ KeyMem cmp z Lb' := by
        intro z
        by_cases hzx : cmp z x = 0
        · constructor
          · intro hz
            exact absurd hz (hnoI z hzx)
          · rintro ⟨hz, _⟩
            exact absurd hz (keyFree_head_notMem hc hfa hzx)
        · rw [hiffI z hzx, hI z, keyMem_cons, ← hiffB z hzx]
          simp [hzx]
      have hrec := ih Lb' LU' LI' hft hfB' hfU' hfI' hmemU hmemI
      simp only [List.length_cons]
      omega
    · have hmemU : ∀ z, KeyMem cmp z LU' ↔
          KeyMem cmp z t ∨ KeyMem cmp z Lb := by
        intro z
        by_cases hzx : cmp z x = 0
        · constructor
          · intro hz
            exact absurd hz (hnoU z hzx)
          · rintro (hz | hz)
            · exact absurd hz (keyFree_head_notMem hc hfa hzx)
            · exact absurd ((keyMem_congr hc hzx Lb).mp hz) hxb
        · rw [hiffU z hzx, hU z, keyMem_cons]
          simp [hzx]
      have hmemI : ∀ z, KeyMem cmp z LI ↔
          KeyMem cmp z t ∧ KeyMem cmp z Lb := by
        intro z
        by_cases hzx : cmp z x = 0
        · constructor
          · intro hz
            obtain ⟨_, hzb⟩ := (hI z).mp hz
            exact absurd ((keyMem_congr hc hzx Lb).mp hzb) hxb
          · rintro ⟨_, hzb⟩
            exact absurd ((keyMem_congr hc hzx Lb).mp hzb) hxb
        · rw [hI z, keyMem_cons]
          simp [hzx]
      have hrec := ih Lb LU' LI hft hfb hfU' hfI hmemU hmemI
      simp only [List.length_cons]
      omega

theorem set_insert_keyMem {cmp : α → α → Int} (hc : TotalCmp cmp)
    {s : SetS α} (hinv : SetInv cmp s) (x : α) :
    ∀ z, KeyMem cmp z (inorder (set_insert cmp s x).1.root) ↔
      cmp z x = 0 ∨ KeyMem cmp z (inorder s.root) := by
  intro z
  by_cases hex : ∃ y ∈ inorder s.root, cmp x y = 0
  · obtain ⟨y, hy, hxy, heq⟩ := (set_insert_spec hc hinv.1 x).1 hex
    rw [heq]
    constructor
    · exact Or.inr
    · rintro (hzx | hz)
      · exact ⟨y, hy, hc.eq_trans hzx hxy⟩
      · exact hz
  · push_neg at hex
    obtain ⟨_, _, _, A, B, hsplit, _, _, hnew⟩ :=
      (set_insert_spec hc hinv.1 x).2 hex
    rw [hnew, hsplit, keyMem_append, keyMem_append, keyMem_cons]
    tauto

theorem rec_set_merge_spec {cmp : α → α → Int} (hc : TotalCmp cmp) :
    ∀ (t : Tree α) (target : SetS α), SetInv cmp target →
      SetInv cmp (rec_set_merge cmp target t) ∧
      ∀ z, KeyMem cmp z (inorder (rec_set_merge cmp target t).root) ↔
        KeyMem cmp z (inorder target.root) ∨ KeyMem cmp z (inorder t) := by
  intro t
  induction t with
  | nil =>
    intro target hinv
    refine ⟨hinv, fun z => ?_⟩
    simp [rec_set_merge, inorder, KeyMem]
  | node c x l r ihl ihr =>
    intro target hinv
    obtain ⟨hinv1, hmem1⟩ := ihr target hinv
    obtain ⟨hinv2, hmem2⟩ := ihl _ hinv1
    refine ⟨set_insert_preserves_inv hc hinv2 x, fun z => ?_⟩
    rw [rec_set_merge, set_insert_keyMem hc hinv2 x z, hmem2 z, hmem1 z]
    simp only [inorder]
    rw [keyMem_append, keyMem_cons]
    tauto

theorem set_get_keyMem {cmp : α → α → Int} (hc : TotalCmp cmp)
    {b : SetS α} (hb : SetInv cmp b) (x : α) :
    (∃ w, set_get cmp b x = some w) ↔ KeyMem cmp x (inorder b.root) := by
  obtain ⟨h1, h2⟩ := node_search_spec hc (e := x) b.root hb.1
  constructor
  · rintro ⟨w, hw⟩
    cases hns : node_search cmp x b.root with
    | nil =>
      simp only [set_get.eq_def, hns] at hw
      cases hw
    | node c y l r =>
      obtain ⟨hcy, hmem⟩ := h2 c y l r hns
      exact ⟨y, hmem, hcy⟩
  · rintro ⟨w, hwmem, hxw⟩
    cases hns : node_search cmp x b.root with
    | nil => exact absurd hxw (h1 hns w hwmem)
    | node c y l r =>
      exact ⟨y, by simp only [set_get.eq_def, hns]⟩

theorem rec_set_intersection_spec {cmp : α → α → Int} (hc : TotalCmp cmp)
    {b : SetS α} (hb : SetInv cmp b) :
    ∀ (t : Tree α) (c : SetS α), SetInv cmp c →
      SetInv cmp (rec_set_intersection cmp c b t) ∧
      ∀ z, KeyMem cmp z (inorder (rec_set_intersection cmp c b t).root) ↔
        KeyMem cmp z (inorder c.root) ∨
          (KeyMem cmp z (inorder t) ∧ KeyMem cmp z (inorder b.root)) := by
  intro t
  induction t with
  | nil =>
    intro c hinv
    refine ⟨hinv, fun z => ?_⟩
    simp [rec_set_intersection, inorder, KeyMem]
  | node tc x l r ihl ihr =>
    intro c hinv
    obtain ⟨hinv1, hmem1⟩ := ihl c hinv
    obtain ⟨hinv2, hmem2⟩ := ihr _ hinv1
    cases hget : set_get cmp b x with
    | some w =>
      have heq : rec_set_intersection cmp c b (Tree.node tc x l r)
          = (set_insert cmp (rec_set_intersection cmp
              (rec_set_intersection cmp c b l) b r) x).1 := by
        simp only [rec_set_intersection, hget]
      rw [heq]
      refine ⟨set_insert_preserves_inv hc hinv2 x, fun z => ?_⟩
      rw [set_insert_keyMem hc hinv2 x z, hmem2 z, hmem1 z]
      have hbx : KeyMem cmp x (inorder b.root) :=
        (set_get_keyMem hc hb x).mp ⟨w, hget⟩
      simp only [inorder]
      rw [keyMem_append, keyMem_cons]
      have hbz : ∀ h9 : cmp z x = 0, KeyMem cmp z (inorder b.root) :=
        fun h9 => (keyMem_congr hc h9 _).mpr hbx
      tauto
    | none =>
      have heq : rec_set_intersection cmp c b (Tree.node tc x l r)
          = rec_set_intersection cmp (rec_set_intersection cmp c b l) b r := by
        simp only [rec_set_intersection, hget]
      rw [heq]
      refine ⟨hinv2, fun z => ?_⟩
      rw [hmem2 z, hmem1 z]
      have hnbx : ¬ KeyMem cmp x (inorder b.root) := by
        intro hk
        obtain ⟨w, hw⟩ := (set_get_keyMem hc hb x).mpr hk
        rw [hget] at hw
        cases hw
      simp only [inorder]
      rw [keyMem_append, keyMem_cons]
      have hnbz : ∀ h9 : cmp z x = 0, ¬ KeyMem cmp z (inorder b.root) :=
        fun h9 hk => hnbx ((keyMem_congr hc h9 _).mp hk)
      tauto

theorem rec_set_copy_id : ∀ t : Tree α, rec_set_copy t = t := by
  intro t
  induction t with
  | nil => rfl
  | node c x l r ihl ihr => simp [rec_set_copy, ihl, ihr]

theorem set_copy_inv {cmp : α → α → Int} {s : SetS α} (hinv : SetInv cmp s)
    (junk : Int) : SetInv cmp (set_copy junk s) := by
  obtain ⟨h1, h2⟩ := hinv
  exact ⟨by simpa [set_copy, rec_set_copy_id] using h1,
    by simpa [set_copy, rec_set_copy_id] using h2⟩

theorem keyFree_of_ordered {cmp : α → α → Int} (hc : TotalCmp cmp)
    {t : Tree α} (h : Ordered cmp t) : KeyFree cmp (inorder t) :=
  ((ordered_iff_pairwise hc t).mp h).imp (fun h0 => by omega)

theorem union_inter_core {cmp : α → α → Int} (hc : TotalCmp cmp)
    (junk : Int) {x y : SetS α} (hx : SetInv cmp x) (hy : SetInv cmp y) :
    (rec_set_merge cmp (set_copy junk x) y.root).length
      + (rec_set_intersection cmp set_create y x.root).length
      = x.length + y.length := by
  obtain ⟨hinvU, hmemU⟩ := rec_set_merge_spec hc y.root (set_copy junk x)
    (set_copy_inv hx junk)
  obtain ⟨hinvI, hmemI⟩ := rec_set_intersection_spec hc hy x.root set_create
    ⟨trivial, rfl⟩
  have hcopy : (set_copy junk x).root = x.root := by
    simp [set_copy, rec_set_copy_id]
  rw [hcopy] at hmemU
  have hU : ∀ z,
      KeyMem cmp z (inorder (rec_set_merge cmp (set_copy junk x) y.root).root)
        ↔ KeyMem cmp z (inorder x.root) ∨ KeyMem cmp z (inorder y.root) :=
    hmemU
  have hI : ∀ z,
      KeyMem cmp z
          (inorder (rec_set_intersection cmp set_create y x.root).root)
        ↔ KeyMem cmp z (inorder x.root) ∧ KeyMem cmp z (inorder y.root) := by
    intro z
    rw [hmemI z]
    have : ¬ KeyMem cmp z (inorder (set_create : SetS α).root) := by
      rintro ⟨w, hw, _⟩
      simp [set_create, inorder] at hw
    tauto
  have hcnt := key_count hc (inorder x.root) (inorder y.root)
    (inorder (rec_set_merge cmp (set_copy junk x) y.root).root)
    (inorder (rec_set_intersection cmp set_create y x.root).root)
    (keyFree_of_ordered hc hx.1) (keyFree_of_ordered hc hy.1)
    (keyFree_of_ordered hc hinvU.1) (keyFree_of_ordered hc hinvI.1)
    hU hI
  rw [hinvU.2, hinvI.2, hx.2, hy.2]
  exact hcnt

/- =====================  Claim C5  ===================== -/

/-- C5: for all sets A and B over the same total-order comparator, the
length of set_union(A, B) equals length(A) + length(B) minus the length of
set_intersection(A, B); stated with the exact additive identity first (so
no truncation is hidden), then in the claim's subtractive form, and also
for the same-handle shortcut paths (a == b), where both operations return
a copy. -/
theorem set_union_inter_length {α : Type} (cmp : α → α → Int)
    (hc : TotalCmp cmp) (junk junk2 : Int) (a b : SetS α)
    (ha : SetInv cmp a) (hb : SetInv cmp b) :
    set_length (set_union cmp junk a b)
        + set_length (set_intersection cmp a b)
      = set_length a + set_length b ∧
    set_length (set_union cmp junk a b)
      = set_length a + set_length b
        - set_length (set_intersection cmp a b) ∧
    set_length (set_union_self junk2 a)
      = set_length a + set_length a
        - set_length (set_intersection_self junk2 a) := by
  have hadd : set_length (set_union cmp junk a b)
      + set_length (set_intersection cmp a b)
      = set_length a + set_length b := by
    by_cases hab : a.length < b.length
    · have hcore := union_inter_core hc junk hb ha
      simp only [set_union, set_intersection, set_length, if_pos hab]
      omega
    · have hcore := union_inter_core hc junk ha hb
      simp only [set_union, set_intersection, set_length, if_neg hab]
      omega
  refine ⟨hadd, by omega, ?_⟩
  simp only [set_union_self, set_intersection_self, set_copy, set_length]
  omega

/-- Witness for C5: concrete two-element integer sets with a one-element
overlap, and concrete junk counter values for the copies. -/
theorem set_union_inter_length_witness :
    TotalCmp compare_integers ∧
    SetInv compare_integers (set_insert_all compare_integers [1, 2]) ∧
    SetInv compare_integers (set_insert_all compare_integers [2, 3]) ∧
    (set_length (set_union compare_integers 7
          (set_insert_all compare_integers [1, 2])
          (set_insert_all compare_integers [2, 3]))
        + set_length (set_intersection compare_integers
          (set_insert_all compare_integers [1, 2])
          (set_insert_all compare_integers [2, 3]))
      = set_length (set_insert_all compare_integers [1, 2])
        + set_length (set_insert_all compare_integers [2, 3]) ∧
    set_length (set_union compare_integers 7
        (set_insert_all compare_integers [1, 2])
        (set_insert_all compare_integers [2, 3]))
      = set_length (set_insert_all compare_integers [1, 2])
        + set_length (set_insert_all compare_integers [2, 3])
        - set_length (set_intersection compare_integers
          (set_insert_all compare_integers [1, 2])
          (set_insert_all compare_integers [2, 3])) ∧
    set_length (set_union_self 9 (set_insert_all compare_integers [1, 2]))
      = set_length (set_insert_all compare_integers [1, 2])
        + set_length (set_insert_all compare_integers [1, 2])
        - set_length (set_intersection_self 9
          (set_insert_all compare_integers [1, 2]))) :=
  ⟨compare_integers_total,
    set_insert_all_inv compare_integers_total [1, 2],
    set_insert_all_inv compare_integers_total [2, 3],
    set_union_inter_length compare_integers compare_integers_total 7 9
      (set_insert_all compare_integers [1, 2])
      (set_insert_all compare_integers [2, 3])
      (set_insert_all_inv compare_integers_total [1, 2])
      (set_insert_all_inv compare_integers_total [2, 3])⟩

/- --------Intersection payload origin (claim C6)-------- -/

theorem set_insert_counter (cmp : α → α → Int) (s : SetS α) (e : α) :
    (set_insert cmp s e).1.n_iterators = s.n_iterators := by
  rw [set_insert.eq_def]
  split
  · rfl
  · split <;> rfl

theorem rec_set_intersection_counter {cmp : α → α → Int} {b : SetS α} :
    ∀ (t : Tree α) (c : SetS α),
      (rec_set_intersection cmp c b t).n_iterators = c.n_iterators := by
  intro t
  induction t with
  | nil => intro c; rfl
  | node tc x l r ihl ihr =>
    intro c
    rw [rec_set_intersection.eq_def]
    cases hget : set_get cmp b x with
    | some w => simp only [hget, set_insert_counter, ihr, ihl]
    | none => simp only [hget, ihr, ihl]

theorem set_insert_mem {cmp : α → α → Int} (hc : TotalCmp cmp)
    {s : SetS α} (hinv : SetInv cmp s) (x w : α)
    (hw : w ∈ inorder (set_insert cmp s x).1.root) :
    w ∈ inorder s.root ∨ w = x := by
  by_cases hex : ∃ y ∈ inorder s.root, cmp x y = 0
  · obtain ⟨y, _, _, heq⟩ := (set_insert_spec hc hinv.1 x).1 hex
    rw [heq] at hw
    exact Or.inl hw
  · push_neg at hex
    obtain ⟨_, _, _, A, B, hsplit, _, _, hnew⟩ :=
      (set_insert_spec hc hinv.1 x).2 hex
    rw [hnew] at hw
    rcases List.mem_append.mp hw with h | h
    · exact Or.inl (by rw [hsplit]; exact List.mem_append.mpr (Or.inl h))
    · rcases List.mem_cons.mp h with rfl | h
      · exact Or.inr rfl
      · exact Or.inl (by rw [hsplit]; exact List.mem_append.mpr (Or.inr h))

theorem rec_set_intersection_mem {cmp : α → α → Int} (hc : TotalCmp cmp)
    {b : SetS α} (hb : SetInv cmp b) :
    ∀ (t : Tree α) (c : SetS α), SetInv cmp c →
      ∀ w ∈ inorder (rec_set_intersection cmp c b t).root,
        w ∈ inorder c.root ∨ w ∈ inorder t := by
  intro t
  induction t with
  | nil =>
    intro c _ w hw
    exact Or.inl hw
  | node tc x l r ihl ihr =>
    intro c hinv w hw
    obtain ⟨hinv1, _⟩ := rec_set_intersection_spec hc hb l c hinv
    obtain ⟨hinv2, _⟩ := rec_set_intersection_spec hc hb r _ hinv1
    have hsplit : w ∈ inorder (rec_set_intersection cmp
        (rec_set_intersection cmp c b l) b r).root ∨ w = x := by
      rw [rec_set_intersection.eq_def] at hw
      cases hget : set_get cmp b x with
      | some v =>
        simp only [hget] at hw
        exact set_insert_mem hc hinv2 x w hw
      | none =>
        simp only [hget] at hw
        exact Or.inl hw
    simp only [inorder, List.mem_append, List.mem_cons]
    rcases hsplit with hw2 | rfl
    · rcases ihr _ hinv1 w hw2 with hw1 | hwr
      · rcases ihl c hinv w hw1 with hwc | hwl
        · exact Or.inl hwc
        · exact Or.inr (Or.inl hwl)
      · exact Or.inr (Or.inr (Or.inr hwr))
    · exact Or.inr (Or.inr (Or.inl rfl))

/- =====================  Claim C6  ===================== -/

/-- C6 (corrected): set_intersection on two distinct handles builds its
result from an empty set (advisory counter zero, shared comparator) by
walking one input tree in postorder and inserting each visited element
exactly when the membership test against the other input finds an equal
key - so the result holds exactly the common keys - but the tree walked is
the LARGER of the two inputs (the first argument on equal lengths), and
the payload references stored in the result are those of the larger input
tree, not of the smaller one as the claim states (the claim has the two
roles swapped). -/
theorem set_intersection_spec_corrected {α : Type} (cmp : α → α → Int)
    (hc : TotalCmp cmp) (a b : SetS α)
    (ha : SetInv cmp a) (hb : SetInv cmp b) :
    SetInv cmp (set_intersection cmp a b) ∧
    (set_intersection cmp a b).n_iterators = 0 ∧
    (∀ z, KeyMem cmp z (inorder (set_intersection cmp a b).root) ↔
      KeyMem cmp z (inorder a.root) ∧ KeyMem cmp z (inorder b.root)) ∧
    (∀ w ∈ inorder (set_intersection cmp a b).root,
      w ∈ inorder (if a.length < b.length then b else a).root) := by
  have hnilmem : ∀ z : α, ¬ KeyMem cmp z (inorder (set_create : SetS α).root) := by
    rintro z ⟨w, hw, _⟩
    simp [set_create, inorder] at hw
  by_cases hab : a.length < b.length
  · simp only [set_intersection, if_pos hab]
    obtain ⟨hinv, hmem⟩ := rec_set_intersection_spec hc ha b.root set_create
      ⟨trivial, rfl⟩
    refine ⟨hinv, rec_set_intersection_counter b.root set_create, ?_, ?_⟩
    · intro z
      rw [hmem z]
      have := hnilmem z
      tauto
    · intro w hw
      rcases rec_set_intersection_mem hc ha b.root set_create
          ⟨trivial, rfl⟩ w hw with hwc | hwb
      · simp [set_create, inorder] at hwc
      · exact hwb
  · simp only [set_intersection, if_neg hab]
    obtain ⟨hinv, hmem⟩ := rec_set_intersection_spec hc hb a.root set_create
      ⟨trivial, rfl⟩
    refine ⟨hinv, rec_set_intersection_counter a.root set_create, ?_, ?_⟩
    · intro z
      rw [hmem z]
      have := hnilmem z
      tauto
    · intro w hw
      rcases rec_set_intersection_mem hc hb a.root set_create
          ⟨trivial, rfl⟩ w hw with hwc | hwa
      · simp [set_create, inorder] at hwc
      · exact hwa

/-- Witness for the corrected C6: two concrete integer sets of different
lengths. -/
theorem set_intersection_spec_corrected_witness :
    TotalCmp compare_integers ∧
    SetInv compare_integers (set_insert_all compare_integers [4]) ∧
    SetInv compare_integers (set_insert_all compare_integers [4, 5]) ∧
    (SetInv compare_integers (set_intersection compare_integers
        (set_insert_all compare_integers [4])
        (set_insert_all compare_integers [4, 5])) ∧
    (set_intersection compare_integers (set_insert_all compare_integers [4])
        (set_insert_all compare_integers [4, 5])).n_iterators = 0 ∧
    (∀ z, KeyMem compare_integers z
        (inorder (set_intersection compare_integers
          (set_insert_all compare_integers [4])
          (set_insert_all compare_integers [4, 5])).root) ↔
      KeyMem compare_integers z
          (inorder (set_insert_all compare_integers [4]).root) ∧
        KeyMem compare_integers z
          (inorder (set_insert_all compare_integers [4, 5]).root)) ∧
    (∀ w ∈ inorder (set_intersection compare_integers
        (set_insert_all compare_integers [4])
        (set_insert_all compare_integers [4, 5])).root,
      w ∈ inorder (if (set_insert_all compare_integers [4]).length
          < (set_insert_all compare_integers [4, 5]).length
        then set_insert_all compare_integers [4, 5]
        else set_insert_all compare_integers [4]).root)) :=
  ⟨compare_integers_total,
    set_insert_all_inv compare_integers_total [4],
    set_insert_all_inv compare_integers_total [4, 5],
    set_intersection_spec_corrected compare_integers compare_integers_total
      (set_insert_all compare_integers [4])
      (set_insert_all compare_integers [4, 5])
      (set_insert_all_inv compare_integers_total [4])
      (set_insert_all_inv compare_integers_total [4, 5])⟩

/-- Counterexample to C6 as stated: with a comparator that inspects only
the first pair component, the smaller input {(1,0)} and the larger input
{(1,10), (2,10)} intersect to the single element (1,10) - the payload of
the LARGER tree - while the claim says the result's payloads are those of
the smaller tree (and (1,0), the smaller tree's payload, is not in the
result). -/
theorem set_intersection_payload_counterexample :
    set_length (set_insert_all compare_fst [((1 : Int), (0 : Int))])
      < set_length (set_insert_all compare_fst
          [((1 : Int), (10 : Int)), ((2 : Int), (10 : Int))]) ∧
    inorder (set_intersection compare_fst
        (set_insert_all compare_fst [((1 : Int), (0 : Int))])
        (set_insert_all compare_fst
          [((1 : Int), (10 : Int)), ((2 : Int), (10 : Int))])).root
      = [((1 : Int), (10 : Int))] ∧
    ((1 : Int), (10 : Int)) ∉
      inorder (set_insert_all compare_fst [((1 : Int), (0 : Int))]).root :=
  ⟨by decide, by decide, by decide⟩

end RBSet